import Mathlib

/-!
Verification of the parroton core algorithms against their specification.

The Rust source is shallowly embedded: serde_json values become the
inductive type JValue (numbers are modelled as integers), serde_json maps
become sorted association lists (serde_json without the preserve_order
feature stores objects in a BTreeMap, i.e. sorted by key), fallible code
returns Except, and panics are modelled as Except.error.  External
collaborators (the JSONPath query evaluator, the HTTP transport, the
persistence layer) are passed in as explicit function arguments, matching
the specification, which treats them as black boxes.
-/

namespace Parroton

/-- Shallow embedding of serde_json::Value.  Numbers are modelled as
integers (floating point is out of scope for these claims); objects are
association lists kept in sorted key order, mirroring serde_json's
default BTreeMap representation. -/
inductive JValue where
  | null : JValue
  | bool : Bool → JValue
  | num : Int → JValue
  | str : String → JValue
  | arr : List JValue → JValue
  | obj : List (String × JValue) → JValue
deriving Repr

/-- Structural equality of JSON values, the embedding of serde_json's
PartialEq (on BTreeMap-backed values map equality coincides with
structural equality of the sorted association lists). -/
def JValue.beq : JValue → JValue → Bool
  | .null, .null => true
  | .bool a, .bool b => a == b
  | .num a, .num b => a == b
  | .str a, .str b => a == b
  | .arr a, .arr b => goList a b
  | .obj a, .obj b => goFields a b
  | _, _ => false
where
  goList : List JValue → List JValue → Bool
    | [], [] => true
    | a :: as, b :: bs => JValue.beq a b && goList as bs
    | _, _ => false
  goFields : List (String × JValue) → List (String × JValue) → Bool
    | [], [] => true
    | (k1, v1) :: as, (k2, v2) :: bs => k1 == k2 && JValue.beq v1 v2 && goFields as bs
    | _, _ => false

mutual

theorem JValue.beq_refl : (v : JValue) → JValue.beq v v = true
  | .null => rfl
  | .bool b => by simp [JValue.beq]
  | .num n => by simp [JValue.beq]
  | .str s => by simp [JValue.beq]
  | .arr l => by simp [JValue.beq, JValue.beq_refl_list l]
  | .obj l => by simp [JValue.beq, JValue.beq_refl_fields l]

theorem JValue.beq_refl_list : (l : List JValue) → JValue.beq.goList l l = true
  | [] => rfl
  | a :: as => by simp [JValue.beq.goList, JValue.beq_refl a, JValue.beq_refl_list as]

theorem JValue.beq_refl_fields : (l : List (String × JValue)) → JValue.beq.goFields l l = true
  | [] => rfl
  | (k, v) :: as => by
      simp [JValue.beq.goFields, JValue.beq_refl v, JValue.beq_refl_fields as]

end

mutual

theorem JValue.eq_of_beq : (a b : JValue) → JValue.beq a b = true → a = b
  | .null, .null, _ => rfl
  | .bool a, .bool b, h => by simp [JValue.beq] at h; simp [h]
  | .num a, .num b, h => by simp [JValue.beq] at h; simp [h]
  | .str a, .str b, h => by simp [JValue.beq] at h; simp [h]
  | .arr a, .arr b, h => by
      simp only [JValue.beq] at h
      exact congrArg JValue.arr (JValue.eq_of_beq_list a b h)
  | .obj a, .obj b, h => by
      simp only [JValue.beq] at h
      exact congrArg JValue.obj (JValue.eq_of_beq_fields a b h)
  | .null, .bool _, h => by simp [JValue.beq] at h
  | .null, .num _, h => by simp [JValue.beq] at h
  | .null, .str _, h => by simp [JValue.beq] at h
  | .null, .arr _, h => by simp [JValue.beq] at h
  | .null, .obj _, h => by simp [JValue.beq] at h
  | .bool _, .null, h => by simp [JValue.beq] at h
  | .bool _, .num _, h => by simp [JValue.beq] at h
  | .bool _, .str _, h => by simp [JValue.beq] at h
  | .bool _, .arr _, h => by simp [JValue.beq] at h
  | .bool _, .obj _, h => by simp [JValue.beq] at h
  | .num _, .null, h => by simp [JValue.beq] at h
  | .num _, .bool _, h => by simp [JValue.beq] at h
  | .num _, .str _, h => by simp [JValue.beq] at h
  | .num _, .arr _, h => by simp [JValue.beq] at h
  | .num _, .obj _, h => by simp [JValue.beq] at h
  | .str _, .null, h => by simp [JValue.beq] at h
  | .str _, .bool _, h => by simp [JValue.beq] at h
  | .str _, .num _, h => by simp [JValue.beq] at h
  | .str _, .arr _, h => by simp [JValue.beq] at h
  | .str _, .obj _, h => by simp [JValue.beq] at h
  | .arr _, .null, h => by simp [JValue.beq] at h
  | .arr _, .bool _, h => by simp [JValue.beq] at h
  | .arr _, .num _, h => by simp [JValue.beq] at h
  | .arr _, .str _, h => by simp [JValue.beq] at h
  | .arr _, .obj _, h => by simp [JValue.beq] at h
  | .obj _, .null, h => by simp [JValue.beq] at h
  | .obj _, .bool _, h => by simp [JValue.beq] at h
  | .obj _, .num _, h => by simp [JValue.beq] at h
  | .obj _, .str _, h => by simp [JValue.beq] at h
  | .obj _, .arr _, h => by simp [JValue.beq] at h

theorem JValue.eq_of_beq_list : (a b : List JValue) → JValue.beq.goList a b = true → a = b
  | [], [], _ => rfl
  | [], _ :: _, h => by simp [JValue.beq.goList] at h
  | _ :: _, [], h => by simp [JValue.beq.goList] at h
  | a :: as, b :: bs, h => by
      simp only [JValue.beq.goList, Bool.and_eq_true] at h
      rw [JValue.eq_of_beq a b h.1, JValue.eq_of_beq_list as bs h.2]

theorem JValue.eq_of_beq_fields :
    (a b : List (String × JValue)) → JValue.beq.goFields a b = true → a = b
  | [], [], _ => rfl
  | [], _ :: _, h => by simp [JValue.beq.goFields] at h
  | _ :: _, [], h => by simp [JValue.beq.goFields] at h
  | (k1, v1) :: as, (k2, v2) :: bs, h => by
      simp only [JValue.beq.goFields, Bool.and_eq_true, beq_iff_eq] at h
      rw [h.1.1, JValue.eq_of_beq v1 v2 h.1.2, JValue.eq_of_beq_fields as bs h.2]

end

theorem JValue.beq_iff_eq (a b : JValue) : JValue.beq a b = true ↔ a = b := by
  constructor
  · exact JValue.eq_of_beq a b
  · rintro rfl; exact JValue.beq_refl a

instance : DecidableEq JValue := fun a b => decidable_of_iff _ (JValue.beq_iff_eq a b)

instance : DecidableEq (Except String JValue) := fun a b =>
  match a, b with
  | .error x, .error y =>
    if h : x = y then .isTrue (by simp [h]) else .isFalse (by simp [h])
  | .error _, .ok _ => .isFalse (by simp)
  | .ok _, .error _ => .isFalse (by simp)
  | .ok x, .ok y =>
    if h : x = y then .isTrue (by simp [h]) else .isFalse (by simp [h])

/-- BTreeMap::get on a sorted association list. -/
def mapLookup : List (String × JValue) → String → Option JValue
  | [], _ => none
  | (k, v) :: rest, key => if k = key then some v else mapLookup rest key

/-- Lexicographic order on character lists by code point; on valid UTF-8
this coincides with the byte-wise Ord on Rust String that BTreeMap keys
use. -/
def charListLt : List Char → List Char → Bool
  | _, [] => false
  | [], _ :: _ => true
  | a :: as, b :: bs =>
    a.toNat < b.toNat || (a.toNat = b.toNat && charListLt as bs)

/-- String order used by BTreeMap keys. -/
def strLt (a b : String) : Bool := charListLt a.toList b.toList

/-- BTreeMap::insert on a sorted association list: overwrite an existing
key, otherwise insert in sorted position. -/
def mapSet : List (String × JValue) → String → JValue → List (String × JValue)
  | [], key, v => [(key, v)]
  | (k, w) :: rest, key, v =>
    if strLt key k then (key, v) :: (k, w) :: rest
    else if key = k then (key, v) :: rest
    else (k, w) :: mapSet rest key v

/-- Decimal digit character, used for rendering array indices. -/
def digitChar : Nat → Char
  | 0 => '0'
  | 1 => '1'
  | 2 => '2'
  | 3 => '3'
  | 4 => '4'
  | 5 => '5'
  | 6 => '6'
  | 7 => '7'
  | 8 => '8'
  | _ => '9'

/-- Fuel-indexed decimal rendering (structural recursion so that the
kernel can evaluate it). -/
def natDigitsAux : Nat → Nat → List Char → List Char
  | 0, _, acc => acc
  | fuel + 1, n, acc =>
    let d := digitChar (n % 10)
    let n2 := n / 10
    if n2 = 0 then d :: acc else natDigitsAux fuel n2 (d :: acc)

/-- Decimal rendering of a natural number, the embedding of Rust's
Display for usize. -/
def natToDigits (n : Nat) : List Char := natDigitsAux (n + 1) n []

/-- Decimal string of a natural number. -/
def natStr (n : Nat) : String := String.mk (natToDigits n)

/-- Numeric value of a decimal digit list, the embedding of
str::parse::<usize> on an all-digit string. -/
def natOfDigits (ds : List Char) : Nat := ds.foldl (fun a c => a * 10 + (c.toNat - 48)) 0

/-- Rust char::is_numeric restricted to ASCII digits (the URLs and keys in
scope are ASCII). -/
def rsIsDigit (c : Char) : Bool := c.isDigit

/-- Embedding of the capture group structure of the regex
^([^\[]+)\[(\d+)\](?:\.(.+))?$ from reverse_flatten_all: a nonempty
bracket-free name, a decimal index, and an optional trailing .rest. -/
def parseArrayKey (part : String) : Option (String × Nat × Option String) :=
  let cs := part.toList
  let name := cs.takeWhile (fun c => c ≠ '[')
  if name.isEmpty then none
  else
    match cs.dropWhile (fun c => c ≠ '[') with
    | '[' :: t =>
      let ds := t.takeWhile rsIsDigit
      if ds.isEmpty then none
      else
        match t.dropWhile rsIsDigit with
        | ']' :: rest =>
          match rest with
          | [] => some (String.mk name, natOfDigits ds, none)
          | '.' :: more =>
            if more.isEmpty then none else some (String.mk name, natOfDigits ds, some (String.mk more))
          | _ => none
        | _ => none
    | _ => none

/-- Rust str::split(c) on character lists: splitting never yields an empty
list, and an empty input yields one empty piece. -/
def splitOnCharL (c : Char) : List Char → List (List Char)
  | [] => [[]]
  | x :: xs =>
    let r := splitOnCharL c xs
    if x = c then [] :: r
    else
      match r with
      | [] => [[x]]
      | piece :: rest => (x :: piece) :: rest

/-- Rust str::split(c) on strings. -/
def splitOnCharS (c : Char) (s : String) : List String :=
  (splitOnCharL c s.toList).map String.mk

/-- Embedding of key.strip_prefix("$.").unwrap_or(key). -/
def stripDollarDot (s : String) : String :=
  match s.toList with
  | '$' :: '.' :: rest => String.mk rest
  | _ => s

/-- The three prefix styles of flatten_json_value (har_resolver.rs). -/
inductive FlattenKeyPrefixType where
  | output
  | input
  | assertionExpression
deriving DecidableEq, Repr

/-- The prefix chosen for a top-level object key, matching the match on
FlattenKeyPrefixType inside flatten_json_value. -/
def flattenNewPrefix (action_name : String) (pt : FlattenKeyPrefixType)
    (pre : String) (key : String) : String :=
  if pre = "" then
    match pt with
    | .output => "$." ++ action_name ++ ".output." ++ key
    | .input => "$." ++ key
    | .assertionExpression => "$." ++ action_name ++ ".input." ++ key
  else pre ++ "." ++ key

/-- Embedding of flatten_json_value (har_resolver.rs): walk the value,
appending .key for object fields and [index] for array elements, and
record each non-container leaf under its accumulated path.  The Rust code
inserts into a HashMap passed by mutable reference; the embedding returns
the pairs in insertion order. -/
def flatten_json_value (action_name : String) (pt : FlattenKeyPrefixType)
    (v : JValue) (prefix_so_far : String) : List (String × JValue) :=
  match v with
  | .obj fields => goFields fields prefix_so_far
  | .arr elems => goElems elems prefix_so_far 0
  | _ => [(prefix_so_far, v)]
where
  goFields : List (String × JValue) → String → List (String × JValue)
    | [], _ => []
    | (key, val) :: rest, pre =>
      flatten_json_value action_name pt val (flattenNewPrefix action_name pt pre key) ++
        goFields rest pre
  goElems : List JValue → String → Nat → List (String × JValue)
    | [], _, _ => []
    | val :: rest, pre, index =>
      flatten_json_value action_name pt val (pre ++ "[" ++ natStr index ++ "]") ++
        goElems rest pre (index + 1)

/-- Grow an array with empty objects so that it has at least n entries,
the embedding of vec.resize(index + 1, Value::Object(Map::new())). -/
def growTo (vec : List JValue) (n : Nat) : List JValue :=
  if vec.length < n then vec ++ List.replicate (n - vec.length) (JValue.obj []) else vec

/-- The last-segment array assignment of reverse_flatten_all: assign into
slot index only when the slot currently holds an object (otherwise the
pair is silently dropped); with a nested field name, insert into that
object instead. -/
def assignArraySlot (vec : List JValue) (index : Nat) (value : JValue)
    (nested : Option String) : List JValue :=
  match vec.get? index with
  | some (.obj o) =>
    match nested with
    | some field => vec.set index (.obj (mapSet o field value))
    | none => vec.set index value
  | _ => vec

/-- One (already dot-split) path laid into an object tree; Except.error
models the two panics of reverse_flatten_all (json_path/utils.rs).  The
entry().or_insert_with(..) calls of the source create the missing entry
before inspecting it, which is what the getD defaults embed. -/
def setPath : List String → JValue → List (String × JValue) → Except String (List (String × JValue))
  | [], _, m => .ok m
  | [part], value, m =>
    match parseArrayKey part with
    | some (array_name, array_index, nested_field) =>
      match (mapLookup m array_name).getD (.arr []) with
      | .arr vec =>
        .ok (mapSet m array_name
          (.arr (assignArraySlot (growTo vec (array_index + 1)) array_index value nested_field)))
      | _ => .ok m
    | none => .ok (mapSet m part value)
  | part :: rest, value, m =>
    match parseArrayKey part with
    | some (array_name, array_index, _) =>
      match (mapLookup m array_name).getD (.arr []) with
      | .arr vec =>
        let vec2 := growTo vec (array_index + 1)
        match vec2.get? array_index with
        | some (.obj inner) =>
          (setPath rest value inner).map fun inner2 =>
            mapSet m array_name (.arr (vec2.set array_index (.obj inner2)))
        | _ => .error "Expected an object in the array"
      | _ => .error "Expected an array"
    | none =>
      match (mapLookup m part).getD (.obj []) with
      | .obj inner =>
        (setPath rest value inner).map fun inner2 => mapSet m part (.obj inner2)
      | _ => .error "Expected an object for the intermediate part"

/-- Embedding of reverse_flatten_all (json_path/utils.rs): fold every
(path, value) pair into a growing root object; the Except.error results
model the panics on conflicting paths. -/
def reverse_flatten_all (path_value_pairs : List (String × JValue)) : Except String JValue :=
  (path_value_pairs.foldlM
    (fun root (kv : String × JValue) =>
      setPath (splitOnCharS '.' (stripDollarDot kv.1)) kv.2 root)
    []).map JValue.obj

/-- Whether a value is an array. -/
def JValue.isArr : JValue → Bool
  | .arr _ => true
  | _ => false

/-- A value vanishes when flattening it produces no pairs at all: every
leaf of it sits under an empty object or an empty array. -/
def vanish : JValue → Bool
  | .obj fields => goFields fields
  | .arr elems => goElems elems
  | _ => false
where
  goFields : List (String × JValue) → Bool
    | [] => true
    | (_, v) :: rest => vanish v && goFields rest
  goElems : List JValue → Bool
    | [] => true
    | v :: rest => vanish v && goElems rest

/-- An object key that survives the round trip: nonempty and free of the
path metacharacters consumed by reverse_flatten_all. -/
def goodKey (k : String) : Bool :=
  !k.toList.isEmpty && k.toList.all fun c => c ≠ '.' && c ≠ '['

/-- Round-trip well-formedness of a document: object keys are good and
strictly sorted (the BTreeMap invariant), no object field holds an empty
object or empty array, array elements are never arrays themselves, a
vanishing array element is exactly the empty object (the densification
case), and the last element of an array never vanishes. -/
def wfJ : JValue → Bool
  | .obj fields => goFields fields
  | .arr elems =>
    goElems elems &&
      (match elems with
       | [] => true
       | _ :: _ => !vanish (elems.getLastD .null))
  | _ => true
where
  goFields : List (String × JValue) → Bool
    | [] => true
    | (k, v) :: rest =>
      goodKey k && !(v == JValue.obj []) && !(v == JValue.arr []) && wfJ v &&
        (match rest with
         | [] => true
         | (k2, _) :: _ => strLt k k2) &&
        goFields rest
  goElems : List JValue → Bool
    | [] => true
    | v :: rest =>
      !v.isArr && wfJ v && (!vanish v || v == JValue.obj []) && goElems rest

/-- Proof-side mirror of flatten_json_value that tracks paths as segment
lists instead of strings: object keys start a new segment, array indices
extend the current last segment. -/
def flattenAt (v : JValue) (p : List String) : List (List String × JValue) :=
  match v with
  | .obj fields => goF fields p
  | .arr elems => goE elems p 0
  | _ => [(p, v)]
where
  goF : List (String × JValue) → List String → List (List String × JValue)
    | [], _ => []
    | (k, w) :: rest, p => flattenAt w (p ++ [k]) ++ goF rest p
  goE : List JValue → List String → Nat → List (List String × JValue)
    | [], _, _ => []
    | w :: rest, p, i =>
      flattenAt w (p.dropLast ++ [p.getLastD "" ++ "[" ++ natStr i ++ "]"]) ++ goE rest p (i + 1)

/-- The segment pairs of all fields of an object, each rooted at its own
key. -/
def fieldsPairs (fields : List (String × JValue)) : List (List String × JValue) :=
  fields.flatMap fun q => flattenAt q.2 [q.1]

/-- Folding setPath over already-split pairs. -/
def runPairs (ps : List (List String × JValue)) (m : List (String × JValue)) :
    Except String (List (String × JValue)) :=
  ps.foldlM (fun acc q => setPath q.1 q.2 acc) m

theorem strMk_toList : ∀ s : String, String.mk s.toList = s
  | ⟨_⟩ => rfl

theorem strExt {a b : String} (h : a.toList = b.toList) : a = b := by
  have h2 := congrArg String.mk h
  rwa [strMk_toList, strMk_toList] at h2

theorem toList_append (a b : String) : (a ++ b).toList = a.toList ++ b.toList := by
  cases a; cases b; rfl

theorem charListLt_irrefl : ∀ a : List Char, charListLt a a = false
  | [] => rfl
  | x :: xs => by simp [charListLt, charListLt_irrefl xs]

theorem charListLt_trans :
    ∀ a b c : List Char, charListLt a b = true → charListLt b c = true → charListLt a c = true := by
  intro a
  induction a with
  | nil =>
    intro b c hab hbc
    cases c with
    | nil => cases b <;> simp [charListLt] at hab hbc
    | cons z zs => simp [charListLt]
  | cons x xs ih =>
    intro b c hab hbc
    cases b with
    | nil => simp [charListLt] at hab
    | cons y ys =>
      cases c with
      | nil => simp [charListLt] at hbc
      | cons z zs =>
        simp only [charListLt, Bool.or_eq_true, Bool.and_eq_true, decide_eq_true_eq] at hab hbc ⊢
        rcases hab with h1 | ⟨h1, h2⟩ <;> rcases hbc with g1 | ⟨g1, g2⟩
        · exact Or.inl (h1.trans g1)
        · exact Or.inl (g1 ▸ h1)
        · exact Or.inl (h1 ▸ g1)
        · exact Or.inr ⟨h1.trans g1, ih ys zs h2 g2⟩

theorem charListLt_asymm :
    ∀ a b : List Char, charListLt a b = true → charListLt b a = false := by
  intro a
  induction a with
  | nil => intro b hab; cases b <;> simp [charListLt] at hab ⊢
  | cons x xs ih =>
    intro b hab
    cases b with
    | nil => simp [charListLt] at hab
    | cons y ys =>
      simp only [charListLt, Bool.or_eq_true, Bool.and_eq_true, decide_eq_true_eq,
        Bool.or_eq_false_iff, Bool.and_eq_false_iff, decide_eq_false_iff_not] at hab ⊢
      rcases hab with h1 | ⟨h1, h2⟩
      · exact ⟨by omega, Or.inl (by omega)⟩
      · exact ⟨by omega, Or.inr (ih ys h2)⟩

theorem strLt_trans {a b c : String} (h1 : strLt a b = true) (h2 : strLt b c = true) :
    strLt a c = true :=
  charListLt_trans _ _ _ h1 h2

theorem strLt_irrefl (a : String) : strLt a a = false := charListLt_irrefl _

theorem strLt_asymm {a b : String} (h : strLt a b = true) : strLt b a = false :=
  charListLt_asymm _ _ h

theorem strLt_ne {a b : String} (h : strLt a b = true) : a ≠ b := by
  intro he
  rw [he, strLt_irrefl] at h
  exact Bool.false_ne_true h

theorem mapSet_append {m : List (String × JValue)} {k : String} (v : JValue)
    (h : ∀ q ∈ m, strLt q.1 k = true) : mapSet m k v = m ++ [(k, v)] := by
  induction m with
  | nil => rfl
  | cons q rest ih =>
    obtain ⟨k2, w⟩ := q
    have hk2 : strLt k2 k = true := h (k2, w) (List.mem_cons_self _ _)
    simp only [mapSet, strLt_asymm hk2, Bool.false_eq_true, if_false,
      (strLt_ne hk2).symm, if_false, List.cons_append]
    rw [ih fun q hq => h q (List.mem_cons_of_mem _ hq)]

theorem mapLookup_none {m : List (String × JValue)} {k : String}
    (h : ∀ q ∈ m, q.1 ≠ k) : mapLookup m k = none := by
  induction m with
  | nil => rfl
  | cons q rest ih =>
    obtain ⟨k2, w⟩ := q
    simp only [mapLookup, h (k2, w) (List.mem_cons_self _ _), if_false]
    exact ih fun q hq => h q (List.mem_cons_of_mem _ hq)

theorem mapLookup_append_self {m : List (String × JValue)} {k : String} (v : JValue)
    (h : ∀ q ∈ m, q.1 ≠ k) : mapLookup (m ++ [(k, v)]) k = some v := by
  induction m with
  | nil => simp [mapLookup]
  | cons q rest ih =>
    obtain ⟨k2, w⟩ := q
    simp only [List.cons_append, mapLookup, h (k2, w) (List.mem_cons_self _ _), if_false]
    exact ih fun q hq => h q (List.mem_cons_of_mem _ hq)

theorem mapSet_append_self {m : List (String × JValue)} {k : String} (v w : JValue)
    (h : ∀ q ∈ m, strLt q.1 k = true) :
    mapSet (m ++ [(k, v)]) k w = m ++ [(k, w)] := by
  induction m with
  | nil => simp [mapSet, strLt_irrefl]
  | cons q rest ih =>
    obtain ⟨k2, u⟩ := q
    have hk2 : strLt k2 k = true := h (k2, u) (List.mem_cons_self _ _)
    simp only [List.cons_append, mapSet, strLt_asymm hk2, Bool.false_eq_true, if_false,
      (strLt_ne hk2).symm, if_false, List.cons.injEq, true_and]
    exact ih fun q hq => h q (List.mem_cons_of_mem _ hq)

theorem mapLookup_mapSet_self (m : List (String × JValue)) (k : String) (v : JValue) :
    mapLookup (mapSet m k v) k = some v := by
  induction m with
  | nil => simp [mapSet, mapLookup]
  | cons q rest ih =>
    obtain ⟨k2, w⟩ := q
    by_cases h1 : strLt k k2 = true
    · simp [mapSet, h1, mapLookup]
    · by_cases h2 : k = k2
      · subst h2; simp [mapSet, h1, strLt_irrefl, mapLookup]
      · simp only [mapSet, h1, Bool.false_eq_true, if_false, h2, mapLookup,
          if_neg (Ne.symm h2)]
        exact ih

theorem mapSet_mapSet (m : List (String × JValue)) (k : String) (v w : JValue) :
    mapSet (mapSet m k v) k w = mapSet m k w := by
  induction m with
  | nil => simp [mapSet, strLt_irrefl]
  | cons q rest ih =>
    obtain ⟨k2, u⟩ := q
    by_cases h1 : strLt k k2 = true
    · simp [mapSet, h1, strLt_irrefl]
    · by_cases h2 : k = k2
      · simp [mapSet, h1, h2, strLt_irrefl]
      · simp only [mapSet, h1, Bool.false_eq_true, if_false, h2, ih]

theorem toList_mk (l : List Char) : (String.mk l).toList = l := rfl

theorem digitChar_val {d : Nat} (h : d < 10) : (digitChar d).toNat = 48 + d := by
  interval_cases d <;> rfl

theorem digitChar_isDigit {d : Nat} (h : d < 10) : (digitChar d).isDigit = true := by
  interval_cases d <;> decide

theorem natDigitsAux_acc :
    ∀ (fuel n : Nat) (acc : List Char),
      natDigitsAux fuel n acc = natDigitsAux fuel n [] ++ acc := by
  intro fuel
  induction fuel with
  | zero => intro n acc; simp [natDigitsAux]
  | succ fuel ih =>
    intro n acc
    simp only [natDigitsAux]
    by_cases h : n / 10 = 0
    · simp [h]
    · simp only [h, if_false]
      rw [ih (n / 10) (digitChar (n % 10) :: acc), ih (n / 10) [digitChar (n % 10)]]
      simp

theorem natDigitsAux_all_digit :
    ∀ (fuel n : Nat) (acc : List Char), (∀ c ∈ acc, c.isDigit = true) →
      ∀ c ∈ natDigitsAux fuel n acc, c.isDigit = true := by
  intro fuel
  induction fuel with
  | zero => intro n acc hacc; simpa [natDigitsAux] using hacc
  | succ fuel ih =>
    intro n acc hacc c hc
    simp only [natDigitsAux] at hc
    by_cases h : n / 10 = 0
    · simp only [h, if_true] at hc
      rcases List.mem_cons.mp hc with rfl | hmem
      · exact digitChar_isDigit (Nat.mod_lt _ (by norm_num))
      · exact hacc c hmem
    · simp only [h, if_false] at hc
      refine ih (n / 10) _ ?_ c hc
      intro c2 hc2
      rcases List.mem_cons.mp hc2 with rfl | hmem
      · exact digitChar_isDigit (Nat.mod_lt _ (by norm_num))
      · exact hacc c2 hmem

theorem natToDigits_all_digit {n : Nat} : ∀ c ∈ natToDigits n, c.isDigit = true :=
  natDigitsAux_all_digit (n + 1) n [] (by simp)

theorem natToDigits_ne_nil (n : Nat) : natToDigits n ≠ [] := by
  simp only [natToDigits, natDigitsAux]
  by_cases h : n / 10 = 0
  · simp [h]
  · simp only [h, if_false]
    rw [natDigitsAux_acc]
    simp

theorem natOfDigits_append_single (x : List Char) (c : Char) :
    natOfDigits (x ++ [c]) = natOfDigits x * 10 + (c.toNat - 48) := by
  simp [natOfDigits, List.foldl_append]

theorem natOfDigits_natDigitsAux :
    ∀ (fuel n : Nat), n < fuel → natOfDigits (natDigitsAux fuel n []) = n := by
  intro fuel
  induction fuel with
  | zero => intro n h; omega
  | succ fuel ih =>
    intro n h
    simp only [natDigitsAux]
    by_cases h0 : n / 10 = 0
    · have hlt : n < 10 := by omega
      simp only [h0, if_true]
      simp only [natOfDigits, List.foldl_cons, List.foldl_nil]
      rw [Nat.mod_eq_of_lt hlt, digitChar_val hlt]
      omega
    · simp only [h0, if_false]
      rw [natDigitsAux_acc, natOfDigits_append_single]
      have hpos : 0 < n := by
        rcases Nat.eq_zero_or_pos n with rfl | hp
        · simp at h0
        · exact hp
      have hdiv : n / 10 < n := Nat.div_lt_self hpos (by norm_num)
      rw [ih (n / 10) (by omega)]
      rw [digitChar_val (Nat.mod_lt _ (by norm_num : (0:Nat) < 10))]
      omega

theorem natOfDigits_natToDigits (n : Nat) : natOfDigits (natToDigits n) = n :=
  natOfDigits_natDigitsAux (n + 1) n (by omega)

theorem takeWhile_all {p : Char → Bool} :
    ∀ l : List Char, (∀ c ∈ l, p c = true) → l.takeWhile p = l := by
  intro l
  induction l with
  | nil => intro _; rfl
  | cons x xs ih =>
    intro h
    simp only [List.takeWhile_cons, h x (List.mem_cons_self _ _), if_true]
    rw [ih fun c hc => h c (List.mem_cons_of_mem _ hc)]

theorem dropWhile_all {p : Char → Bool} :
    ∀ l : List Char, (∀ c ∈ l, p c = true) → l.dropWhile p = [] := by
  intro l
  induction l with
  | nil => intro _; rfl
  | cons x xs ih =>
    intro h
    simp only [List.dropWhile_cons, h x (List.mem_cons_self _ _), if_true]
    exact ih fun c hc => h c (List.mem_cons_of_mem _ hc)

theorem takeWhile_append_stop {p : Char → Bool} :
    ∀ (a : List Char) (x : Char) (r : List Char), (∀ c ∈ a, p c = true) → p x = false →
      (a ++ x :: r).takeWhile p = a := by
  intro a
  induction a with
  | nil => intro x r _ hx; simp [List.takeWhile_cons, hx]
  | cons c cs ih =>
    intro x r h hx
    simp only [List.cons_append, List.takeWhile_cons, h c (List.mem_cons_self _ _), if_true]
    rw [ih x r (fun c2 hc2 => h c2 (List.mem_cons_of_mem _ hc2)) hx]

theorem dropWhile_append_stop {p : Char → Bool} :
    ∀ (a : List Char) (x : Char) (r : List Char), (∀ c ∈ a, p c = true) → p x = false →
      (a ++ x :: r).dropWhile p = x :: r := by
  intro a
  induction a with
  | nil => intro x r _ hx; simp [List.dropWhile_cons, hx]
  | cons c cs ih =>
    intro x r h hx
    simp only [List.cons_append, List.dropWhile_cons, h c (List.mem_cons_self _ _), if_true]
    exact ih x r (fun c2 hc2 => h c2 (List.mem_cons_of_mem _ hc2)) hx

theorem goodKey_spec {k : String} (h : goodKey k = true) :
    k.toList ≠ [] ∧ ∀ c ∈ k.toList, c ≠ '.' ∧ c ≠ '[' := by
  simp only [goodKey, Bool.and_eq_true, Bool.not_eq_true', List.all_eq_true] at h
  obtain ⟨h1, h2⟩ := h
  refine ⟨?_, ?_⟩
  · intro hnil
    rw [hnil] at h1
    simp at h1
  · intro c hc
    have h3 := h2 c hc
    simp only [Bool.and_eq_true, decide_eq_true_eq] at h3
    exact h3

theorem isEmpty_false_of_ne_nil {l : List Char} (h : l ≠ []) : l.isEmpty = false := by
  cases l with
  | nil => exact absurd rfl h
  | cons a as => rfl

theorem parseArrayKey_goodKey {k : String} (h : goodKey k = true) : parseArrayKey k = none := by
  obtain ⟨hne, hchars⟩ := goodKey_spec h
  have hall : ∀ c ∈ k.toList, (fun c => decide (c ≠ '[')) c = true := by
    intro c hc
    simp [(hchars c hc).2]
  simp only [parseArrayKey]
  rw [takeWhile_all _ hall, dropWhile_all _ hall]
  rw [isEmpty_false_of_ne_nil hne]
  rfl

theorem parseArrayKey_bracket {k : String} (hk : goodKey k = true) (i : Nat) :
    parseArrayKey (k ++ "[" ++ natStr i ++ "]") = some (k, i, none) := by
  obtain ⟨hne, hchars⟩ := goodKey_spec hk
  have hbr : ("[" : String).toList = ['['] := rfl
  have hbr2 : ("]" : String).toList = [']'] := rfl
  have hlist : (k ++ "[" ++ natStr i ++ "]").toList
      = k.toList ++ '[' :: (natToDigits i ++ [']']) := by
    rw [toList_append, toList_append, toList_append, hbr, hbr2]
    simp [natStr, toList_mk]
  have hallk : ∀ c ∈ k.toList, (fun c => decide (c ≠ '[')) c = true := by
    intro c hc
    simp [(hchars c hc).2]
  have halld : ∀ c ∈ natToDigits i, rsIsDigit c = true := fun c hc =>
    natToDigits_all_digit c hc
  simp only [parseArrayKey, hlist]
  rw [takeWhile_append_stop _ _ _ hallk (by simp), dropWhile_append_stop _ _ _ hallk (by simp)]
  rw [isEmpty_false_of_ne_nil hne]
  simp only [Bool.false_eq_true, if_false]
  rw [takeWhile_append_stop _ _ _ halld (by rfl), dropWhile_append_stop _ _ _ halld (by rfl)]
  rw [isEmpty_false_of_ne_nil (natToDigits_ne_nil i)]
  simp only [Bool.false_eq_true, if_false]
  rw [strMk_toList, natOfDigits_natToDigits]

theorem growTo_of_le {vec : List JValue} {n : Nat} (h : n ≤ vec.length) :
    growTo vec n = vec := by
  simp only [growTo]
  rw [if_neg (show ¬ vec.length < n by omega)]

theorem growTo_of_lt {vec : List JValue} {n : Nat} (h : vec.length < n) :
    growTo vec n = vec ++ List.replicate (n - vec.length) (JValue.obj []) := by
  simp only [growTo, if_pos h]

theorem length_growTo (vec : List JValue) (n : Nat) :
    (growTo vec n).length = max vec.length n := by
  by_cases h : vec.length < n
  · rw [growTo_of_lt h]
    simp
    omega
  · rw [growTo_of_le (by omega)]
    omega

theorem getQ_append_plus : ∀ (a b : List JValue) (i : Nat), (a ++ b).get? (a.length + i) = b.get? i := by
  intro a
  induction a with
  | nil => intro b i; simp
  | cons x xs ih => intro b i; simpa [Nat.succ_add] using ih b i

theorem getQ_replicate {x : JValue} : ∀ (n i : Nat), i < n → (List.replicate n x).get? i = some x := by
  intro n
  induction n with
  | zero => intro i h; omega
  | succ n ih =>
    intro i h
    cases i with
    | zero => simp [List.replicate_succ]
    | succ j => simpa [List.replicate_succ] using ih j (by omega)

theorem getQ_set_self : ∀ (l : List JValue) (i : Nat) (x : JValue), i < l.length →
    (l.set i x).get? i = some x := by
  intro l
  induction l with
  | nil => intro i x h; simp at h
  | cons a as ih =>
    intro i x h
    cases i with
    | zero => rfl
    | succ j => simpa using ih j x (by simpa using h)

theorem set_set_self : ∀ (l : List JValue) (i : Nat) (x y : JValue),
    (l.set i x).set i y = l.set i y := by
  intro l
  induction l with
  | nil => intro i x y; rfl
  | cons a as ih =>
    intro i x y
    cases i with
    | zero => rfl
    | succ j => simpa using ih j x y

theorem set_append_plus : ∀ (a b : List JValue) (i : Nat) (x : JValue),
    (a ++ b).set (a.length + i) x = a ++ b.set i x := by
  intro a
  induction a with
  | nil => intro b i x; simp
  | cons y ys ih => intro b i x; simpa [Nat.succ_add] using ih b i x

theorem runPairs_nil (m : List (String × JValue)) : runPairs [] m = .ok m := rfl

theorem runPairs_cons (q : List String × JValue) (ps : List (List String × JValue))
    (m : List (String × JValue)) :
    runPairs (q :: ps) m = (setPath q.1 q.2 m).bind fun m2 => runPairs ps m2 := by
  simp only [runPairs, List.foldlM_cons]
  cases setPath q.1 q.2 m <;> rfl

theorem runPairs_append (a b : List (List String × JValue)) (m : List (String × JValue)) :
    runPairs (a ++ b) m = (runPairs a m).bind fun m2 => runPairs b m2 := by
  induction a generalizing m with
  | nil => simp [runPairs_nil, Except.bind]
  | cons q rest ih =>
    rw [List.cons_append, runPairs_cons, runPairs_cons]
    cases setPath q.1 q.2 m with
    | error e => rfl
    | ok m2 => simpa using ih m2

theorem setPath_obj_step {s : String} {q : List String} {v : JValue}
    {m inner : List (String × JValue)}
    (hq : q ≠ []) (hparse : parseArrayKey s = none)
    (hlook : (mapLookup m s).getD (.obj []) = .obj inner) :
    setPath (s :: q) v m = (setPath q v inner).map fun i2 => mapSet m s (.obj i2) := by
  cases q with
  | nil => exact absurd rfl hq
  | cons q1 qs => simp only [setPath, hparse, hlook]

theorem setPath_arr_step {s name : String} {idx : Nat} {r : Option String} {q : List String}
    {v : JValue} {m inner : List (String × JValue)} {vec vec2 : List JValue}
    (hq : q ≠ []) (hparse : parseArrayKey s = some (name, idx, r))
    (hlook : (mapLookup m name).getD (.arr []) = .arr vec)
    (hvec2 : growTo vec (idx + 1) = vec2)
    (hslot : vec2.get? idx = some (.obj inner)) :
    setPath (s :: q) v m
      = (setPath q v inner).map fun i2 => mapSet m name (.arr (vec2.set idx (.obj i2))) := by
  cases q with
  | nil => exact absurd rfl hq
  | cons q1 qs => simp only [setPath, hparse, hlook, hvec2, hslot]

theorem setPath_last_arr {s name : String} {idx : Nat} {r : Option String} {v : JValue}
    {m : List (String × JValue)} {vec : List JValue}
    (hparse : parseArrayKey s = some (name, idx, r))
    (hlook : (mapLookup m name).getD (.arr []) = .arr vec) :
    setPath [s] v m
      = .ok (mapSet m name (.arr (assignArraySlot (growTo vec (idx + 1)) idx v r))) := by
  simp only [setPath, hparse, hlook]

theorem setPath_last_plain {s : String} {v : JValue} {m : List (String × JValue)}
    (hparse : parseArrayKey s = none) :
    setPath [s] v m = .ok (mapSet m s v) := by
  simp only [setPath, hparse]

theorem objDescendPresent {s : String} {m : List (String × JValue)}
    (hparse : parseArrayKey s = none) :
    ∀ (ps : List (List String × JValue)) (inner : List (String × JValue)),
      (∀ q ∈ ps, q.1 ≠ []) →
      runPairs (ps.map fun q => (s :: q.1, q.2)) (mapSet m s (.obj inner))
        = (runPairs ps inner).map fun i2 => mapSet m s (.obj i2) := by
  intro ps
  induction ps with
  | nil => intro inner _; simp [runPairs_nil, Except.map]
  | cons q rest ih =>
    intro inner hne
    rw [List.map_cons, runPairs_cons]
    rw [setPath_obj_step (hne q (List.mem_cons_self _ _)) hparse
      (by rw [mapLookup_mapSet_self]; rfl)]
    rw [runPairs_cons]
    cases hsp : setPath q.1 q.2 inner with
    | error e => simp [Except.map, Except.bind]
    | ok i1 =>
      simp only [Except.map, Except.bind]
      rw [mapSet_mapSet]
      exact ih i1 fun q2 hq2 => hne q2 (List.mem_cons_of_mem _ hq2)

theorem arrDescendPresent {s name : String} {idx : Nat} {r : Option String}
    {m : List (String × JValue)} {vecG : List JValue}
    (hparse : parseArrayKey s = some (name, idx, r)) (hidx : idx < vecG.length) :
    ∀ (ps : List (List String × JValue)) (inner : List (String × JValue)),
      (∀ q ∈ ps, q.1 ≠ []) →
      runPairs (ps.map fun q => (s :: q.1, q.2)) (mapSet m name (.arr (vecG.set idx (.obj inner))))
        = (runPairs ps inner).map fun i2 => mapSet m name (.arr (vecG.set idx (.obj i2))) := by
  intro ps
  induction ps with
  | nil => intro inner _; simp [runPairs_nil, Except.map]
  | cons q rest ih =>
    intro inner hne
    rw [List.map_cons, runPairs_cons]
    rw [setPath_arr_step (hne q (List.mem_cons_self _ _)) hparse
      (by rw [mapLookup_mapSet_self]; rfl)
      (growTo_of_le (by simp [List.length_set]; omega))
      (getQ_set_self _ _ _ (by simpa using hidx))]
    rw [runPairs_cons]
    cases hsp : setPath q.1 q.2 inner with
    | error e => simp [Except.map, Except.bind]
    | ok i1 =>
      simp only [Except.map, Except.bind]
      rw [mapSet_mapSet, set_set_self]
      exact ih i1 fun q2 hq2 => hne q2 (List.mem_cons_of_mem _ hq2)

theorem objDescend {s : String} {m : List (String × JValue)}
    {ps : List (List String × JValue)}
    (hparse : parseArrayKey s = none) (hlook : mapLookup m s = none)
    (hps : ps ≠ []) (hne : ∀ q ∈ ps, q.1 ≠ []) :
    runPairs (ps.map fun q => (s :: q.1, q.2)) m
      = (runPairs ps []).map fun i2 => mapSet m s (.obj i2) := by
  cases ps with
  | nil => exact absurd rfl hps
  | cons q rest =>
    rw [List.map_cons, runPairs_cons]
    rw [setPath_obj_step (hne q (List.mem_cons_self _ _)) hparse (by rw [hlook]; rfl)]
    rw [runPairs_cons]
    cases hsp : setPath q.1 q.2 [] with
    | error e => simp [Except.map, Except.bind]
    | ok i1 =>
      simp only [Except.map, Except.bind]
      exact objDescendPresent hparse rest i1 fun q2 hq2 => hne q2 (List.mem_cons_of_mem _ hq2)

theorem arrDescend {s name : String} {idx : Nat} {r : Option String}
    {m : List (String × JValue)} {vec : List JValue} {ps : List (List String × JValue)}
    (hparse : parseArrayKey s = some (name, idx, r))
    (hlook : (mapLookup m name).getD (.arr []) = .arr vec)
    (hlen : vec.length ≤ idx)
    (hps : ps ≠ []) (hne : ∀ q ∈ ps, q.1 ≠ []) :
    runPairs (ps.map fun q => (s :: q.1, q.2)) m
      = (runPairs ps []).map fun i2 =>
          mapSet m name (.arr ((growTo vec (idx + 1)).set idx (.obj i2))) := by
  have hgrow : growTo vec (idx + 1) = vec ++ List.replicate (idx + 1 - vec.length) (JValue.obj []) :=
    growTo_of_lt (by omega)
  have hslot : (growTo vec (idx + 1)).get? idx = some (.obj []) := by
    rw [hgrow]
    have hidx : idx = vec.length + (idx - vec.length) := by omega
    rw [hidx, getQ_append_plus]
    exact getQ_replicate _ _ (by omega)
  have hidxlt : idx < (growTo vec (idx + 1)).length := by
    rw [length_growTo]
    omega
  cases ps with
  | nil => exact absurd rfl hps
  | cons q rest =>
    rw [List.map_cons, runPairs_cons]
    rw [setPath_arr_step (hne q (List.mem_cons_self _ _)) hparse hlook rfl hslot]
    rw [runPairs_cons]
    cases hsp : setPath q.1 q.2 [] with
    | error e => simp [Except.map, Except.bind]
    | ok i1 =>
      simp only [Except.map, Except.bind]
      exact arrDescendPresent hparse hidxlt rest i1 fun q2 hq2 =>
        hne q2 (List.mem_cons_of_mem _ hq2)

theorem getLastD_irrel {α : Type} : ∀ (l : List α) (a b : α), l ≠ [] →
    l.getLastD a = l.getLastD b
  | [], _, _, h => absurd rfl h
  | _ :: _, _, _, _ => by rw [List.getLastD_cons, List.getLastD_cons]

theorem getLastD_mem {α : Type} : ∀ (l : List α) (d : α), l ≠ [] → l.getLastD d ∈ l
  | [], _, h => absurd rfl h
  | x :: xs, d, _ => by
      cases xs with
      | nil => simp [List.getLastD_cons, List.getLastD_nil]
      | cons y ys =>
        rw [List.getLastD_cons]
        exact List.mem_cons_of_mem _ (getLastD_mem (y :: ys) x (by simp))

theorem dropLast_cons_of_ne_nil {s : String} {p : List String} (h : p ≠ []) :
    (s :: p).dropLast = s :: p.dropLast := by
  cases p with
  | nil => exact absurd rfl h
  | cons a l => rfl

theorem getLastD_cons_of_ne_nil {s d : String} {p : List String} (h : p ≠ []) :
    (s :: p).getLastD d = p.getLastD d := by
  cases p with
  | nil => exact absurd rfl h
  | cons a l =>
    rw [List.getLastD_cons d s (a :: l), List.getLastD_cons d a l, List.getLastD_cons s a l]

mutual

theorem flattenAt_cons : (v : JValue) → ∀ (s : String) (p : List String), p ≠ [] →
    flattenAt v (s :: p) = (flattenAt v p).map fun q => (s :: q.1, q.2)
  | .null, s, p, h => rfl
  | .bool _, s, p, h => rfl
  | .num _, s, p, h => rfl
  | .str _, s, p, h => rfl
  | .obj fields, s, p, h => by
      simp only [flattenAt]
      exact flattenAt_goF_cons fields s p h
  | .arr elems, s, p, h => by
      simp only [flattenAt]
      exact flattenAt_goE_cons elems s p 0 h

theorem flattenAt_goF_cons :
    (fields : List (String × JValue)) → ∀ (s : String) (p : List String), p ≠ [] →
      flattenAt.goF fields (s :: p) = (flattenAt.goF fields p).map fun q => (s :: q.1, q.2)
  | [], s, p, h => rfl
  | (k, w) :: rest, s, p, h => by
      simp only [flattenAt.goF]
      have h1 : (s :: p) ++ [k] = s :: (p ++ [k]) := rfl
      rw [h1, flattenAt_cons w s (p ++ [k]) (by simp), flattenAt_goF_cons rest s p h,
        List.map_append]

theorem flattenAt_goE_cons :
    (elems : List JValue) → ∀ (s : String) (p : List String) (i : Nat), p ≠ [] →
      flattenAt.goE elems (s :: p) i = (flattenAt.goE elems p i).map fun q => (s :: q.1, q.2)
  | [], s, p, i, h => rfl
  | w :: rest, s, p, i, h => by
      simp only [flattenAt.goE]
      rw [dropLast_cons_of_ne_nil h, getLastD_cons_of_ne_nil h]
      have h2 : s :: p.dropLast ++ [p.getLastD "" ++ "[" ++ natStr i ++ "]"]
          = s :: (p.dropLast ++ [p.getLastD "" ++ "[" ++ natStr i ++ "]"]) := rfl
      rw [h2, flattenAt_cons w s _ (by simp), flattenAt_goE_cons rest s p (i + 1) h,
        List.map_append]

end

mutual

theorem flattenAt_eq_nil_iff : (v : JValue) → ∀ p, (flattenAt v p = [] ↔ vanish v = true)
  | .null, p => by simp [flattenAt, vanish]
  | .bool _, p => by simp [flattenAt, vanish]
  | .num _, p => by simp [flattenAt, vanish]
  | .str _, p => by simp [flattenAt, vanish]
  | .obj fields, p => by
      simp only [flattenAt, vanish]
      exact flattenAt_goF_eq_nil_iff fields p
  | .arr elems, p => by
      simp only [flattenAt, vanish]
      exact flattenAt_goE_eq_nil_iff elems p 0

theorem flattenAt_goF_eq_nil_iff :
    (fields : List (String × JValue)) → ∀ p,
      (flattenAt.goF fields p = [] ↔ vanish.goFields fields = true)
  | [], p => by simp [flattenAt.goF, vanish.goFields]
  | (k, w) :: rest, p => by
      simp only [flattenAt.goF, vanish.goFields, List.append_eq_nil, Bool.and_eq_true]
      rw [flattenAt_eq_nil_iff w (p ++ [k])]
      rw [flattenAt_goF_eq_nil_iff rest p]

theorem flattenAt_goE_eq_nil_iff :
    (elems : List JValue) → ∀ p i,
      (flattenAt.goE elems p i = [] ↔ vanish.goElems elems = true)
  | [], p, i => by simp [flattenAt.goE, vanish.goElems]
  | w :: rest, p, i => by
      simp only [flattenAt.goE, vanish.goElems, List.append_eq_nil, Bool.and_eq_true]
      rw [flattenAt_eq_nil_iff w _]
      rw [flattenAt_goE_eq_nil_iff rest p (i + 1)]

end

mutual

theorem flattenAt_fst_ne_nil : (v : JValue) → ∀ p, p ≠ [] →
    ∀ q ∈ flattenAt v p, q.1 ≠ []
  | .null, p, h => by simp only [flattenAt]; intro q hq; rw [List.mem_singleton.mp hq]; exact h
  | .bool _, p, h => by simp only [flattenAt]; intro q hq; rw [List.mem_singleton.mp hq]; exact h
  | .num _, p, h => by simp only [flattenAt]; intro q hq; rw [List.mem_singleton.mp hq]; exact h
  | .str _, p, h => by simp only [flattenAt]; intro q hq; rw [List.mem_singleton.mp hq]; exact h
  | .obj fields, p, h => by
      simp only [flattenAt]
      exact flattenAt_goF_fst_ne_nil fields p h
  | .arr elems, p, h => by
      simp only [flattenAt]
      exact flattenAt_goE_fst_ne_nil elems p 0 h

theorem flattenAt_goF_fst_ne_nil :
    (fields : List (String × JValue)) → ∀ p, p ≠ [] →
      ∀ q ∈ flattenAt.goF fields p, q.1 ≠ []
  | [], p, h => by simp [flattenAt.goF]
  | (k, w) :: rest, p, h => by
      simp only [flattenAt.goF]
      intro q hq
      rcases List.mem_append.mp hq with h1 | h2
      · exact flattenAt_fst_ne_nil w (p ++ [k]) (by simp) q h1
      · exact flattenAt_goF_fst_ne_nil rest p h q h2

theorem flattenAt_goE_fst_ne_nil :
    (elems : List JValue) → ∀ p i, p ≠ [] →
      ∀ q ∈ flattenAt.goE elems p i, q.1 ≠ []
  | [], p, i, h => by simp [flattenAt.goE]
  | w :: rest, p, i, h => by
      simp only [flattenAt.goE]
      intro q hq
      rcases List.mem_append.mp hq with h1 | h2
      · exact flattenAt_fst_ne_nil w _ (by simp) q h1
      · exact flattenAt_goE_fst_ne_nil rest p (i + 1) h q h2

end

theorem flattenAt_obj_single (fields : List (String × JValue)) (s : String) :
    flattenAt (.obj fields) [s] = (fieldsPairs fields).map fun q => (s :: q.1, q.2) := by
  simp only [flattenAt]
  induction fields with
  | nil => simp [flattenAt.goF, fieldsPairs]
  | cons f rest ih =>
    obtain ⟨k, w⟩ := f
    simp only [flattenAt.goF, fieldsPairs, List.flatMap_cons, List.map_append]
    have h1 : ([s] : List String) ++ [k] = s :: [k] := rfl
    rw [h1, flattenAt_cons w s [k] (by simp)]
    simp only [fieldsPairs] at ih
    rw [ih]

theorem fieldsPairs_fst_ne_nil (fields : List (String × JValue)) :
    ∀ q ∈ fieldsPairs fields, q.1 ≠ [] := by
  intro q hq
  simp only [fieldsPairs, List.mem_flatMap] at hq
  obtain ⟨f, _, hmem⟩ := hq
  exact flattenAt_fst_ne_nil f.2 [f.1] (by simp) q hmem

theorem vanishElems_mem :
    ∀ (elems : List JValue), vanish.goElems elems = true → ∀ e ∈ elems, vanish e = true := by
  intro elems
  induction elems with
  | nil => simp
  | cons x xs ih =>
    intro h e he
    simp only [vanish.goElems, Bool.and_eq_true] at h
    rcases List.mem_cons.mp he with rfl | hmem
    · exact h.1
    · exact ih h.2 e hmem

theorem wfFields_cons_eq (k : String) (v : JValue) (rest : List (String × JValue)) :
    wfJ.goFields ((k, v) :: rest)
      = (goodKey k && !(v == JValue.obj []) && !(v == JValue.arr []) && wfJ v &&
          (match rest with
           | [] => true
           | (k2, _) :: _ => strLt k k2) &&
          wfJ.goFields rest) := rfl

theorem wfFields_head_lt :
    ∀ (rest : List (String × JValue)) (k : String) (v : JValue),
      wfJ.goFields ((k, v) :: rest) = true → ∀ f ∈ rest, strLt k f.1 = true := by
  intro rest
  induction rest with
  | nil => simp
  | cons g rest2 ih =>
    intro k v h f hf
    obtain ⟨k2, v2⟩ := g
    rw [wfFields_cons_eq] at h
    simp only [Bool.and_eq_true] at h
    obtain ⟨⟨_, hadj⟩, hrest⟩ := h
    rcases List.mem_cons.mp hf with rfl | hf2
    · exact hadj
    · exact strLt_trans hadj (ih k2 v2 hrest f hf2)

theorem nonvanish : (v : JValue) → wfJ v = true → v ≠ .obj [] → v ≠ .arr [] →
    vanish v = false
  | .null, _, _, _ => rfl
  | .bool _, _, _, _ => rfl
  | .num _, _, _, _ => rfl
  | .str _, _, _, _ => rfl
  | .obj [], _, h, _ => absurd rfl h
  | .obj ((k, w) :: rest), hwf, _, _ => by
      simp only [wfJ] at hwf
      rw [wfFields_cons_eq] at hwf
      simp only [Bool.and_eq_true] at hwf
      obtain ⟨⟨⟨⟨⟨_, hne1⟩, hne2⟩, hwfw⟩, _⟩, _⟩ := hwf
      have hv := nonvanish w hwfw (by simpa using hne1) (by simpa using hne2)
      simp [vanish, vanish.goFields, hv]
  | .arr [], _, _, h => absurd rfl h
  | .arr (e :: rest), hwf, _, _ => by
      simp only [wfJ, Bool.and_eq_true] at hwf
      obtain ⟨_, hlast⟩ := hwf
      cases hv : vanish (.arr (e :: rest))
      · rfl
      · exfalso
        simp only [vanish] at hv
        have hmem := vanishElems_mem _ hv ((e :: rest).getLastD .null)
          (getLastD_mem _ _ (by simp))
        rw [List.getLastD_eq_getLast?] at hmem
        simp [hmem] at hlast

/-- The map state while the elements of one array entry named k are being
laid down: nothing has been inserted yet while the array is empty. -/
def mState (m0 : List (String × JValue)) (k : String) (vec : List JValue) :
    List (String × JValue) :=
  if vec.isEmpty then m0 else m0 ++ [(k, .arr vec)]

theorem mState_lookup {m0 : List (String × JValue)} {k : String} {vec : List JValue}
    (h : ∀ q ∈ m0, strLt q.1 k = true) :
    (mapLookup (mState m0 k vec) k).getD (.arr []) = .arr vec := by
  cases vec with
  | nil =>
    have hm : mState m0 k [] = m0 := by simp [mState]
    rw [hm, mapLookup_none fun q hq => strLt_ne (h q hq)]
    rfl
  | cons x xs =>
    have hm : mState m0 k (x :: xs) = m0 ++ [(k, .arr (x :: xs))] := by simp [mState]
    rw [hm, mapLookup_append_self _ fun q hq => strLt_ne (h q hq)]
    rfl

theorem mState_set {m0 : List (String × JValue)} {k : String} {vec : List JValue}
    (h : ∀ q ∈ m0, strLt q.1 k = true) (x : JValue) :
    mapSet (mState m0 k vec) k x = m0 ++ [(k, x)] := by
  cases vec with
  | nil =>
    have hm : mState m0 k [] = m0 := by simp [mState]
    rw [hm]
    exact mapSet_append x h
  | cons y ys =>
    have hm : mState m0 k (y :: ys) = m0 ++ [(k, .arr (y :: ys))] := by simp [mState]
    rw [hm]
    exact mapSet_append_self _ x h

theorem mState_ne_nil {m0 : List (String × JValue)} {k : String} {vec : List JValue}
    (h : vec ≠ []) : mState m0 k vec = m0 ++ [(k, .arr vec)] := by
  cases vec with
  | nil => exact absurd rfl h
  | cons y ys => simp [mState]

theorem grow_slot {vec : List JValue} {i : Nat} (hlen : vec.length ≤ i) :
    (growTo vec (i + 1)).get? i = some (.obj []) := by
  rw [growTo_of_lt (by omega)]
  have hidx : i = vec.length + (i - vec.length) := by omega
  rw [hidx, getQ_append_plus]
  exact getQ_replicate _ _ (by omega)

theorem assignArraySlot_none {g : List JValue} {i : Nat} {e : JValue}
    (h : g.get? i = some (.obj [])) :
    assignArraySlot g i e none = g.set i e := by
  simp only [assignArraySlot, h]

theorem grow_set_eq {vec : List JValue} {i : Nat} (hlen : vec.length ≤ i) (x : JValue) :
    (growTo vec (i + 1)).set i x
      = vec ++ List.replicate (i - vec.length) (.obj []) ++ [x] := by
  rw [growTo_of_lt (by omega)]
  have h1 : i + 1 - vec.length = (i - vec.length) + 1 := by omega
  rw [h1, List.replicate_succ']
  have h2 : (vec ++ (List.replicate (i - vec.length) (JValue.obj []) ++ [JValue.obj []])).set i x
      = ((vec ++ List.replicate (i - vec.length) (JValue.obj [])) ++ [JValue.obj []]).set
          ((vec ++ List.replicate (i - vec.length) (JValue.obj [])).length + 0) x := by
    rw [List.append_assoc]
    congr 1
    simp
    omega
  rw [h2, set_append_plus]
  simp

theorem graftElems_leaf (e : JValue) {s k : String} {i : Nat} {vec : List JValue}
    {m0 : List (String × JValue)}
    (hleaf : flattenAt e [s] = [([s], e)])
    (hparse : parseArrayKey s = some (k, i, none))
    (hm0 : ∀ q ∈ m0, strLt q.1 k = true)
    (hlen : vec.length ≤ i) :
    runPairs (flattenAt e [s]) (mState m0 k vec)
      = .ok (mState m0 k (vec ++ List.replicate (i - vec.length) (.obj []) ++ [e])) := by
  rw [hleaf, runPairs_cons, setPath_last_arr hparse (mState_lookup hm0)]
  rw [assignArraySlot_none (grow_slot hlen), grow_set_eq hlen]
  rw [mState_set hm0]
  simp only [Except.bind, runPairs_nil]
  rw [mState_ne_nil (by simp)]

mutual

theorem graftOne : (w : JValue) → ∀ (k : String) (m0 : List (String × JValue)),
    goodKey k = true → wfJ w = true → w ≠ .obj [] → w ≠ .arr [] →
    (∀ q ∈ m0, strLt q.1 k = true) →
    runPairs (flattenAt w [k]) m0 = .ok (m0 ++ [(k, w)])
  | .null, k, m0, hgk, _, _, _, hm0 => by
      rw [show flattenAt .null [k] = [([k], JValue.null)] from rfl]
      rw [runPairs_cons, setPath_last_plain (parseArrayKey_goodKey hgk)]
      simp only [Except.bind, runPairs_nil]
      rw [mapSet_append _ hm0]
  | .bool b, k, m0, hgk, _, _, _, hm0 => by
      rw [show flattenAt (.bool b) [k] = [([k], JValue.bool b)] from rfl]
      rw [runPairs_cons, setPath_last_plain (parseArrayKey_goodKey hgk)]
      simp only [Except.bind, runPairs_nil]
      rw [mapSet_append _ hm0]
  | .num n, k, m0, hgk, _, _, _, hm0 => by
      rw [show flattenAt (.num n) [k] = [([k], JValue.num n)] from rfl]
      rw [runPairs_cons, setPath_last_plain (parseArrayKey_goodKey hgk)]
      simp only [Except.bind, runPairs_nil]
      rw [mapSet_append _ hm0]
  | .str t, k, m0, hgk, _, _, _, hm0 => by
      rw [show flattenAt (.str t) [k] = [([k], JValue.str t)] from rfl]
      rw [runPairs_cons, setPath_last_plain (parseArrayKey_goodKey hgk)]
      simp only [Except.bind, runPairs_nil]
      rw [mapSet_append _ hm0]
  | .obj fields, k, m0, hgk, hwf, hne1, _, hm0 => by
      have hwfF : wfJ.goFields fields = true := by simpa [wfJ] using hwf
      have hnv : vanish (.obj fields) = false := nonvanish _ hwf hne1 (by simp)
      have hpairs_ne : fieldsPairs fields ≠ [] := by
        intro hnil
        have hfl : flattenAt (.obj fields) [k] = [] := by
          rw [flattenAt_obj_single, hnil]
          rfl
        rw [flattenAt_eq_nil_iff] at hfl
        rw [hfl] at hnv
        simp at hnv
      rw [flattenAt_obj_single]
      rw [objDescend (parseArrayKey_goodKey hgk)
        (mapLookup_none fun q hq => strLt_ne (hm0 q hq)) hpairs_ne
        (fieldsPairs_fst_ne_nil fields)]
      rw [graftFields fields [] hwfF (by simp)]
      simp only [Except.map, List.nil_append]
      rw [mapSet_append _ hm0]
  | .arr elems, k, m0, hgk, hwf, _, hne2, hm0 => by
      cases elems with
      | nil => exact absurd rfl hne2
      | cons e rest =>
        simp only [wfJ, Bool.and_eq_true] at hwf
        obtain ⟨hgo, hlast⟩ := hwf
        have hlastF : vanish ((e :: rest).getLastD JValue.null) = false := by
          cases hvv : vanish ((e :: rest).getLastD JValue.null)
          · rfl
          · rw [hvv] at hlast
            simp at hlast
        have hrun := graftElems (e :: rest) 0 [] m0 k hgk hm0 hgo (by simp) (Or.inl hlastF)
        rw [show mState m0 k [] = m0 from by simp [mState]] at hrun
        simp only [flattenAt]
        rw [hrun]
        rw [show (if (e :: rest).isEmpty then ([] : List JValue)
            else [] ++ List.replicate (0 - ([] : List JValue).length) (JValue.obj [])
              ++ (e :: rest)) = e :: rest from by simp]
        rw [mState_ne_nil (by simp)]

theorem graftFields : (fields : List (String × JValue)) → ∀ (m0 : List (String × JValue)),
    wfJ.goFields fields = true →
    (∀ f ∈ fields, ∀ q ∈ m0, strLt q.1 f.1 = true) →
    runPairs (fieldsPairs fields) m0 = .ok (m0 ++ fields)
  | [], m0, _, _ => by simp [fieldsPairs, runPairs_nil]
  | (k, w) :: rest, m0, hwfF, hlt => by
      have hhead := wfFields_head_lt rest k w hwfF
      rw [wfFields_cons_eq] at hwfF
      simp only [Bool.and_eq_true] at hwfF
      obtain ⟨⟨⟨⟨⟨hgk, hne1⟩, hne2⟩, hwfw⟩, _⟩, hrest⟩ := hwfF
      have hW1 : w ≠ .obj [] := by simpa using hne1
      have hW2 : w ≠ .arr [] := by simpa using hne2
      have hltrest : ∀ f ∈ rest, ∀ q ∈ m0 ++ [(k, w)], strLt q.1 f.1 = true := by
        intro f hf q hq
        rcases List.mem_append.mp hq with hq1 | hq2
        · exact hlt f (List.mem_cons_of_mem _ hf) q hq1
        · rw [List.mem_singleton.mp hq2]
          exact hhead f hf
      rw [show fieldsPairs ((k, w) :: rest) = flattenAt w [k] ++ fieldsPairs rest from by
        simp [fieldsPairs]]
      rw [runPairs_append]
      rw [graftOne w k m0 hgk hwfw hW1 hW2
        (fun q hq => hlt (k, w) (List.mem_cons_self _ _) q hq)]
      simp only [Except.bind]
      rw [graftFields rest (m0 ++ [(k, w)]) hrest hltrest]
      simp

theorem graftElems : (elems : List JValue) → ∀ (i : Nat) (vec : List JValue)
    (m0 : List (String × JValue)) (k : String),
    goodKey k = true →
    (∀ q ∈ m0, strLt q.1 k = true) →
    wfJ.goElems elems = true →
    vec.length ≤ i →
    (vanish (elems.getLastD .null) = false ∨ elems = []) →
    runPairs (flattenAt.goE elems [k] i) (mState m0 k vec)
      = .ok (mState m0 k (if elems.isEmpty then vec
          else vec ++ List.replicate (i - vec.length) (.obj []) ++ elems))
  | [], i, vec, m0, k, _, _, _, _, _ => by simp [flattenAt.goE, runPairs_nil]
  | e :: rest, i, vec, m0, k, hgk, hm0, hgo, hlen, hlast => by
      simp only [wfJ.goElems, Bool.and_eq_true] at hgo
      obtain ⟨⟨⟨hnarr, hwfe⟩, hvan⟩, hrest⟩ := hgo
      have hlastC : vanish ((e :: rest).getLastD .null) = false := by
        rcases hlast with h | h
        · exact h
        · exact absurd h (by simp)
      simp only [flattenAt.goE]
      rw [show ([k] : List String).dropLast
          ++ [([k] : List String).getLastD "" ++ "[" ++ natStr i ++ "]"]
          = [k ++ "[" ++ natStr i ++ "]"] from rfl]
      have hparse := parseArrayKey_bracket hgk i
      rw [runPairs_append]
      by_cases hv : vanish e = true
      · have he : e = .obj [] := by
          rw [hv] at hvan
          simpa using hvan
        have hfl : flattenAt e [k ++ "[" ++ natStr i ++ "]"] = [] :=
          (flattenAt_eq_nil_iff e _).mpr hv
        rw [hfl, runPairs_nil]
        simp only [Except.bind]
        have hrestne : rest ≠ [] := by
          intro h0
          rw [h0, List.getLastD_cons, List.getLastD_nil, hv] at hlastC
          simp at hlastC
        have hlast2 : vanish (rest.getLastD .null) = false := by
          rw [List.getLastD_cons] at hlastC
          rwa [getLastD_irrel rest e .null hrestne] at hlastC
        rw [graftElems rest (i + 1) vec m0 k hgk hm0 hrest (by omega) (Or.inl hlast2)]
        rw [if_neg (by simpa using hrestne), if_neg (by simp)]
        have hrep : List.replicate (i + 1 - vec.length) (JValue.obj [])
            = List.replicate (i - vec.length) (JValue.obj []) ++ [JValue.obj []] := by
          rw [show i + 1 - vec.length = (i - vec.length) + 1 from by omega,
            List.replicate_succ']
        rw [hrep, he]
        simp [List.append_assoc]
      · have hlast3 : vanish (rest.getLastD .null) = false ∨ rest = [] := by
          by_cases h0 : rest = []
          · exact Or.inr h0
          · refine Or.inl ?_
            rw [List.getLastD_cons] at hlastC
            rwa [getLastD_irrel rest e .null h0] at hlastC
        cases e with
        | arr xs => simp [JValue.isArr] at hnarr
        | obj efields =>
          have hvF : vanish (.obj efields) = false := by
            cases hvv : vanish (.obj efields)
            · rfl
            · exact absurd hvv hv
          have hwfF : wfJ.goFields efields = true := by simpa [wfJ] using hwfe
          have hpairs_ne : fieldsPairs efields ≠ [] := by
            intro hnil
            have hfl : flattenAt (.obj efields) [k ++ "[" ++ natStr i ++ "]"] = [] := by
              rw [flattenAt_obj_single, hnil]
              rfl
            rw [flattenAt_eq_nil_iff] at hfl
            rw [hfl] at hvF
            simp at hvF
          rw [flattenAt_obj_single]
          rw [arrDescend hparse (mState_lookup hm0) hlen hpairs_ne
            (fieldsPairs_fst_ne_nil efields)]
          rw [graftFields efields [] hwfF (by simp)]
          simp only [Except.map, Except.bind, List.nil_append]
          rw [grow_set_eq hlen, mState_set hm0]
          rw [show m0 ++ [(k, JValue.arr (vec ++ List.replicate (i - vec.length)
                (JValue.obj []) ++ [JValue.obj efields]))]
              = mState m0 k (vec ++ List.replicate (i - vec.length) (JValue.obj [])
                ++ [JValue.obj efields]) from (mState_ne_nil (by simp)).symm]
          rw [graftElems rest (i + 1) _ m0 k hgk hm0 hrest (by simp; omega) hlast3]
          by_cases h0 : rest = []
          · subst h0
            simp
          · rw [if_neg (by simpa using h0), if_neg (by simp)]
            have hnlen : (vec ++ List.replicate (i - vec.length) (JValue.obj [])
                ++ [JValue.obj efields]).length = i + 1 := by
              simp
              omega
            rw [hnlen]
            simp [List.append_assoc]
        | null =>
          rw [graftElems_leaf JValue.null rfl hparse hm0 hlen]
          simp only [Except.bind]
          rw [graftElems rest (i + 1) _ m0 k hgk hm0 hrest (by simp; omega) hlast3]
          by_cases h0 : rest = []
          · subst h0
            simp
          · rw [if_neg (by simpa using h0), if_neg (by simp)]
            have hnlen : (vec ++ List.replicate (i - vec.length) (JValue.obj [])
                ++ [JValue.null]).length = i + 1 := by
              simp
              omega
            rw [hnlen]
            simp [List.append_assoc]
        | bool b =>
          rw [graftElems_leaf (JValue.bool b) rfl hparse hm0 hlen]
          simp only [Except.bind]
          rw [graftElems rest (i + 1) _ m0 k hgk hm0 hrest (by simp; omega) hlast3]
          by_cases h0 : rest = []
          · subst h0
            simp
          · rw [if_neg (by simpa using h0), if_neg (by simp)]
            have hnlen : (vec ++ List.replicate (i - vec.length) (JValue.obj [])
                ++ [JValue.bool b]).length = i + 1 := by
              simp
              omega
            rw [hnlen]
            simp [List.append_assoc]
        | num n =>
          rw [graftElems_leaf (JValue.num n) rfl hparse hm0 hlen]
          simp only [Except.bind]
          rw [graftElems rest (i + 1) _ m0 k hgk hm0 hrest (by simp; omega) hlast3]
          by_cases h0 : rest = []
          · subst h0
            simp
          · rw [if_neg (by simpa using h0), if_neg (by simp)]
            have hnlen : (vec ++ List.replicate (i - vec.length) (JValue.obj [])
                ++ [JValue.num n]).length = i + 1 := by
              simp
              omega
            rw [hnlen]
            simp [List.append_assoc]
        | str t =>
          rw [graftElems_leaf (JValue.str t) rfl hparse hm0 hlen]
          simp only [Except.bind]
          rw [graftElems rest (i + 1) _ m0 k hgk hm0 hrest (by simp; omega) hlast3]
          by_cases h0 : rest = []
          · subst h0
            simp
          · rw [if_neg (by simpa using h0), if_neg (by simp)]
            have hnlen : (vec ++ List.replicate (i - vec.length) (JValue.obj [])
                ++ [JValue.str t]).length = i + 1 := by
              simp
              omega
            rw [hnlen]
            simp [List.append_assoc]

end

/-- Dot-joined rendering of a segment list (proof-side). -/
def joinDots : List String → String
  | [] => ""
  | [s] => s
  | s :: rest => s ++ "." ++ joinDots rest

/-- Full path string of a segment list, as flatten_json_value builds it
under the bare input prefix style. -/
def segPath (segs : List String) : String := "$." ++ joinDots segs

theorem joinDots_cons {rest : List String} (s : String) (h : rest ≠ []) :
    joinDots (s :: rest) = s ++ "." ++ joinDots rest := by
  cases rest with
  | nil => exact absurd rfl h
  | cons a l => rfl

theorem joinDots_toList_app : ∀ (p : List String) (k : String), p ≠ [] →
    (joinDots (p ++ [k])).toList = (joinDots p).toList ++ '.' :: k.toList := by
  intro p
  induction p with
  | nil => intro k h; exact absurd rfl h
  | cons x p2 ih =>
    intro k _
    cases p2 with
    | nil =>
      show (joinDots [x, k]).toList = (joinDots [x]).toList ++ '.' :: k.toList
      simp [joinDots, toList_append]
    | cons y ys =>
      rw [List.cons_append, joinDots_cons x (by simp), joinDots_cons x (by simp)]
      rw [toList_append, toList_append, toList_append, toList_append]
      rw [ih k (by simp)]
      simp

theorem joinDots_toList_arr : ∀ (p : List String) (i : Nat), p ≠ [] →
    (joinDots (p.dropLast ++ [p.getLastD "" ++ "[" ++ natStr i ++ "]"])).toList
      = (joinDots p).toList ++ '[' :: (natToDigits i ++ [']']) := by
  intro p
  induction p with
  | nil => intro i h; exact absurd rfl h
  | cons x p2 ih =>
    intro i _
    cases p2 with
    | nil =>
      show (joinDots [x ++ "[" ++ natStr i ++ "]"]).toList
          = (joinDots [x]).toList ++ '[' :: (natToDigits i ++ [']'])
      simp [joinDots, toList_append, natStr, toList_mk]
    | cons y ys =>
      rw [dropLast_cons_of_ne_nil (by simp), getLastD_cons_of_ne_nil (by simp)]
      rw [List.cons_append, joinDots_cons x (by simp), joinDots_cons x (by simp)]
      rw [toList_append, toList_append, toList_append, toList_append]
      rw [ih i (by simp)]
      simp

theorem segPath_ne_empty (p : List String) : segPath p ≠ "" := by
  intro h
  have h2 := congrArg String.toList h
  simp only [segPath, toList_append, show ("$." : String).toList = ['$', '.'] from rfl,
    show ("" : String).toList = [] from rfl] at h2
  simp at h2

theorem segPath_obj_step (p : List String) (k : String) (hne : p ≠ []) :
    segPath p ++ "." ++ k = segPath (p ++ [k]) := by
  apply strExt
  rw [toList_append, toList_append]
  show (segPath p).toList ++ ['.'] ++ k.toList = _
  simp only [segPath, toList_append, joinDots_toList_app p k hne]
  simp

theorem segPath_arr_step (p : List String) (i : Nat) (hne : p ≠ []) :
    segPath p ++ "[" ++ natStr i ++ "]"
      = segPath (p.dropLast ++ [p.getLastD "" ++ "[" ++ natStr i ++ "]"]) := by
  apply strExt
  rw [toList_append, toList_append, toList_append]
  show (segPath p).toList ++ ['['] ++ (natStr i).toList ++ [']'] = _
  simp only [segPath, toList_append, joinDots_toList_arr p i hne]
  simp [natStr, toList_mk]

theorem splitOnCharL_ne_nil (c : Char) : ∀ l : List Char, splitOnCharL c l ≠ []
  | [] => by simp [splitOnCharL]
  | x :: xs => by
      simp only [splitOnCharL]
      by_cases h : x = c
      · simp [h]
      · simp only [h, if_false]
        cases hr : splitOnCharL c xs with
        | nil => simp
        | cons piece rest => simp

theorem splitOnCharL_no_sep {c : Char} :
    ∀ l : List Char, (∀ x ∈ l, x ≠ c) → splitOnCharL c l = [l] := by
  intro l
  induction l with
  | nil => intro _; rfl
  | cons x xs ih =>
    intro h
    simp only [splitOnCharL, h x (List.mem_cons_self _ _), if_false]
    rw [ih fun y hy => h y (List.mem_cons_of_mem _ hy)]

theorem splitOnCharL_append (c : Char) :
    ∀ (a b : List Char), splitOnCharL c (a ++ c :: b) = splitOnCharL c a ++ splitOnCharL c b := by
  intro a
  induction a with
  | nil => intro b; simp [splitOnCharL]
  | cons x xs ih =>
    intro b
    by_cases h : x = c
    · rw [h]
      show splitOnCharL c (c :: (xs ++ c :: b)) = _
      simp only [splitOnCharL, if_pos rfl, ih b]
      simp
    · show splitOnCharL c (x :: (xs ++ c :: b)) = _
      simp only [splitOnCharL, h, if_false, ih b]
      cases hr : splitOnCharL c xs with
      | nil => exact absurd hr (splitOnCharL_ne_nil c xs)
      | cons piece rest => simp

theorem stripDollarDot_segPath (q : List String) :
    stripDollarDot (segPath q) = joinDots q := by
  have ht : (segPath q).toList = '$' :: '.' :: (joinDots q).toList := by
    simp only [segPath, toList_append, show ("$." : String).toList = ['$', '.'] from rfl]
    rfl
  simp only [stripDollarDot, ht]
  exact strMk_toList _

theorem joinDots_toList_split : ∀ (q : List String), q ≠ [] →
    (∀ s ∈ q, ∀ ch ∈ s.toList, ch ≠ '.') →
    splitOnCharL '.' ((joinDots q).toList) = q.map String.toList := by
  intro q
  induction q with
  | nil => intro h; exact absurd rfl h
  | cons s rest ih =>
    intro _ hok
    cases rest with
    | nil =>
      show splitOnCharL '.' ((joinDots [s]).toList) = [s.toList]
      exact splitOnCharL_no_sep _ fun x hx => hok s (by simp) x hx
    | cons y ys =>
      rw [joinDots_cons s (by simp), toList_append, toList_append,
        show ("." : String).toList = ['.'] from rfl]
      rw [show s.toList ++ ['.'] ++ (joinDots (y :: ys)).toList
          = s.toList ++ '.' :: (joinDots (y :: ys)).toList from by simp]
      rw [splitOnCharL_append]
      rw [splitOnCharL_no_sep _ fun x hx => hok s (by simp) x hx]
      rw [ih (by simp) fun t ht ch hch => hok t (List.mem_cons_of_mem _ ht) ch hch]
      rfl

theorem splitKey_segPath {q : List String} (hne : q ≠ [])
    (hok : ∀ s ∈ q, ∀ ch ∈ s.toList, ch ≠ '.') :
    splitOnCharS '.' (stripDollarDot (segPath q)) = q := by
  rw [stripDollarDot_segPath]
  simp only [splitOnCharS]
  rw [joinDots_toList_split q hne hok]
  rw [List.map_map]
  have : (String.mk ∘ String.toList) = id := by
    funext s
    exact strMk_toList s
  rw [this, List.map_id]

mutual

theorem flattenAt_segs_ok : (v : JValue) → ∀ (p : List String),
    (∀ s ∈ p, ∀ ch ∈ s.toList, ch ≠ '.') → wfJ v = true →
    ∀ q ∈ flattenAt v p, ∀ s ∈ q.1, ∀ ch ∈ s.toList, ch ≠ '.'
  | .null, p, hp, _ => by
      simp only [flattenAt]
      intro q hq
      rw [List.mem_singleton.mp hq]
      exact hp
  | .bool _, p, hp, _ => by
      simp only [flattenAt]
      intro q hq
      rw [List.mem_singleton.mp hq]
      exact hp
  | .num _, p, hp, _ => by
      simp only [flattenAt]
      intro q hq
      rw [List.mem_singleton.mp hq]
      exact hp
  | .str _, p, hp, _ => by
      simp only [flattenAt]
      intro q hq
      rw [List.mem_singleton.mp hq]
      exact hp
  | .obj fields, p, hp, hwf => by
      simp only [flattenAt]
      exact flattenAt_goF_segs_ok fields p hp (by simpa [wfJ] using hwf)
  | .arr elems, p, hp, hwf => by
      simp only [flattenAt]
      have hgo : wfJ.goElems elems = true := by
        simp only [wfJ, Bool.and_eq_true] at hwf
        exact hwf.1
      exact flattenAt_goE_segs_ok elems p 0 hp hgo

theorem flattenAt_goF_segs_ok :
    (fields : List (String × JValue)) → ∀ (p : List String),
      (∀ s ∈ p, ∀ ch ∈ s.toList, ch ≠ '.') → wfJ.goFields fields = true →
      ∀ q ∈ flattenAt.goF fields p, ∀ s ∈ q.1, ∀ ch ∈ s.toList, ch ≠ '.'
  | [], p, _, _ => by simp [flattenAt.goF]
  | (k, w) :: rest, p, hp, hwfF => by
      rw [wfFields_cons_eq] at hwfF
      simp only [Bool.and_eq_true] at hwfF
      obtain ⟨⟨⟨⟨⟨hgk, _⟩, _⟩, hwfw⟩, _⟩, hrest⟩ := hwfF
      simp only [flattenAt.goF]
      intro q hq
      rcases List.mem_append.mp hq with h1 | h2
      · refine flattenAt_segs_ok w (p ++ [k]) ?_ hwfw q h1
        intro s hs ch hch
        rcases List.mem_append.mp hs with hs1 | hs2
        · exact hp s hs1 ch hch
        · rw [List.mem_singleton.mp hs2] at hch
          exact ((goodKey_spec hgk).2 ch hch).1
      · exact flattenAt_goF_segs_ok rest p hp hrest q h2

theorem flattenAt_goE_segs_ok :
    (elems : List JValue) → ∀ (p : List String) (i : Nat),
      (∀ s ∈ p, ∀ ch ∈ s.toList, ch ≠ '.') → wfJ.goElems elems = true →
      ∀ q ∈ flattenAt.goE elems p i, ∀ s ∈ q.1, ∀ ch ∈ s.toList, ch ≠ '.'
  | [], p, i, _, _ => by simp [flattenAt.goE]
  | e :: rest, p, i, hp, hgo => by
      simp only [wfJ.goElems, Bool.and_eq_true] at hgo
      obtain ⟨⟨⟨_, hwfe⟩, _⟩, hrest⟩ := hgo
      simp only [flattenAt.goE]
      intro q hq
      rcases List.mem_append.mp hq with h1 | h2
      · have hlastok : ∀ ch ∈ (p.getLastD "").toList, ch ≠ '.' := by
          cases p with
          | nil =>
            intro ch hch2
            rw [List.getLastD_nil] at hch2
            simp at hch2
          | cons a l =>
            intro ch hch2
            exact hp _ (getLastD_mem _ _ (by simp)) ch hch2
        refine flattenAt_segs_ok e _ ?_ hwfe q h1
        intro s hs ch hch
        rcases List.mem_append.mp hs with hs1 | hs2
        · exact hp s (List.dropLast_subset _ hs1) ch hch
        · rw [List.mem_singleton.mp hs2] at hch
          rw [toList_append, toList_append, toList_append] at hch
          simp only [List.mem_append] at hch
          rcases hch with ((hg | hbr) | hdig) | hrb
          · exact hlastok ch hg
          · rw [show ("[" : String).toList = ['['] from rfl] at hbr
            rw [List.mem_singleton.mp hbr]
            decide
          · have hd : ch.isDigit = true := by
              refine natToDigits_all_digit (n := i) ch ?_
              simpa [natStr, toList_mk] using hdig
            intro hcontra
            rw [hcontra] at hd
            exact absurd hd (by decide)
          · rw [show ("]" : String).toList = [']'] from rfl] at hrb
            rw [List.mem_singleton.mp hrb]
            decide
      · exact flattenAt_goE_segs_ok rest p (i + 1) hp hrest q h2

end

mutual

theorem flatten_corr : (v : JValue) → ∀ (name : String) (p : List String), p ≠ [] →
    flatten_json_value name .input v (segPath p)
      = (flattenAt v p).map fun q => (segPath q.1, q.2)
  | .null, _, _, _ => rfl
  | .bool _, _, _, _ => rfl
  | .num _, _, _, _ => rfl
  | .str _, _, _, _ => rfl
  | .obj fields, name, p, h => by
      simp only [flatten_json_value, flattenAt]
      exact flatten_corr_goF fields name p h
  | .arr elems, name, p, h => by
      simp only [flatten_json_value, flattenAt]
      exact flatten_corr_goE elems name p 0 h

theorem flatten_corr_goF : (fields : List (String × JValue)) →
    ∀ (name : String) (p : List String), p ≠ [] →
      flatten_json_value.goFields name .input fields (segPath p)
        = (flattenAt.goF fields p).map fun q => (segPath q.1, q.2)
  | [], _, _, _ => rfl
  | (k, w) :: rest, name, p, h => by
      simp only [flatten_json_value.goFields, flattenAt.goF]
      have hpre : flattenNewPrefix name .input (segPath p) k = segPath (p ++ [k]) := by
        simp only [flattenNewPrefix, if_neg (segPath_ne_empty p)]
        exact segPath_obj_step p k h
      rw [hpre, flatten_corr w name (p ++ [k]) (by simp), flatten_corr_goF rest name p h]
      simp [List.map_append]

theorem flatten_corr_goE : (elems : List JValue) →
    ∀ (name : String) (p : List String) (i : Nat), p ≠ [] →
      flatten_json_value.goElems name .input elems (segPath p) i
        = (flattenAt.goE elems p i).map fun q => (segPath q.1, q.2)
  | [], _, _, _, _ => rfl
  | w :: rest, name, p, i, h => by
      simp only [flatten_json_value.goElems, flattenAt.goE]
      rw [segPath_arr_step p i h]
      rw [flatten_corr w name _ (by simp), flatten_corr_goE rest name p (i + 1) h]
      simp [List.map_append]

end

theorem flatten_input_top (name : String) (fields : List (String × JValue)) :
    flatten_json_value name .input (.obj fields) ""
      = (fieldsPairs fields).map fun q => (segPath q.1, q.2) := by
  simp only [flatten_json_value]
  induction fields with
  | nil => simp [flatten_json_value.goFields, fieldsPairs]
  | cons f rest ih =>
    obtain ⟨k, w⟩ := f
    simp only [flatten_json_value.goFields]
    have hpre : flattenNewPrefix name .input "" k = segPath [k] := by
      simp [flattenNewPrefix, segPath, joinDots]
    rw [hpre, flatten_corr w name [k] (by simp)]
    rw [ih]
    rw [show fieldsPairs ((k, w) :: rest) = flattenAt w [k] ++ fieldsPairs rest from by
      simp [fieldsPairs]]
    simp [List.map_append]

theorem reverse_flatten_eq_runPairs (pairs : List (String × JValue)) :
    reverse_flatten_all pairs
      = (runPairs
          (pairs.map fun kv => (splitOnCharS '.' (stripDollarDot kv.1), kv.2)) []).map
          JValue.obj := by
  simp only [reverse_flatten_all, runPairs]
  congr 1
  have hfold : ∀ (l : List (String × JValue)) (init : List (String × JValue)),
      l.foldlM (fun root kv => setPath (splitOnCharS '.' (stripDollarDot kv.1)) kv.2 root) init
        = (l.map fun kv => (splitOnCharS '.' (stripDollarDot kv.1), kv.2)).foldlM
            (fun acc q => setPath q.1 q.2 acc) init := by
    intro l
    induction l with
    | nil => intro init; rfl
    | cons kv rest ih =>
      intro init
      simp only [List.foldlM_cons, List.map_cons]
      cases setPath (splitOnCharS '.' (stripDollarDot kv.1)) kv.2 init with
      | error e => rfl
      | ok m2 => exact ih m2
  exact hfold pairs []

theorem fieldsPairs_segs_ok : (fields : List (String × JValue)) →
    wfJ.goFields fields = true →
    ∀ q ∈ fieldsPairs fields, ∀ s ∈ q.1, ∀ ch ∈ s.toList, ch ≠ '.'
  | [], _ => by simp [fieldsPairs]
  | (k, w) :: rest, hwfF => by
      have hcopy := hwfF
      rw [wfFields_cons_eq] at hcopy
      simp only [Bool.and_eq_true] at hcopy
      obtain ⟨⟨⟨⟨⟨hgk, _⟩, _⟩, hwfw⟩, _⟩, hrest⟩ := hcopy
      intro q hq
      rw [show fieldsPairs ((k, w) :: rest) = flattenAt w [k] ++ fieldsPairs rest from by
        simp [fieldsPairs]] at hq
      rcases List.mem_append.mp hq with h1 | h2
      · refine flattenAt_segs_ok w [k] ?_ hwfw q h1
        intro s hs ch hch
        rw [List.mem_singleton.mp hs] at hch
        exact ((goodKey_spec hgk).2 ch hch).1
      · exact fieldsPairs_segs_ok rest hrest q h2

/-- Amended round-trip: for any document whose root is an object and which
satisfies the round-trip well-formedness predicate wfJ, reconstructing the
flattening (bare input prefix style) yields the document back exactly;
array slots whose element is the empty object are restored by the
densification fill. -/
theorem flatten_roundtrip (action_name : String) (fields : List (String × JValue))
    (hwf : wfJ (.obj fields) = true) :
    reverse_flatten_all (flatten_json_value action_name .input (.obj fields) "")
      = .ok (.obj fields) := by
  have hwfF : wfJ.goFields fields = true := by simpa [wfJ] using hwf
  rw [flatten_input_top, reverse_flatten_eq_runPairs, List.map_map]
  have hmap : ((fieldsPairs fields).map
      ((fun kv : String × JValue => (splitOnCharS '.' (stripDollarDot kv.1), kv.2)) ∘
        (fun q : List String × JValue => (segPath q.1, q.2))))
      = fieldsPairs fields := by
    have hcongr : ∀ q ∈ fieldsPairs fields,
        ((fun kv : String × JValue => (splitOnCharS '.' (stripDollarDot kv.1), kv.2)) ∘
          (fun q : List String × JValue => (segPath q.1, q.2))) q = id q := by
      intro q hq
      have h1 := splitKey_segPath (fieldsPairs_fst_ne_nil fields q hq)
        (fieldsPairs_segs_ok fields hwfF q hq)
      simp only [Function.comp_apply, id_eq]
      rw [h1]
    rw [List.map_congr_left hcongr, List.map_id]
  rw [hmap]
  rw [graftFields fields [] hwfF (by simp)]
  rfl

/-- C1 (counterexample): the round trip is not the identity up to array
index densification on every document.  For the document with one field
"a" holding the array with entries 1 and the empty object, flattening
produces only the pair for index 0, and reconstruction returns an array
of length 1: the array IS shrunk from two entries to one, which the claim
explicitly rules out, and the result differs from the document. -/
theorem C1_array_shrink_counterexample :
    reverse_flatten_all (flatten_json_value "a1" .input
        (.obj [("a", .arr [.num 1, .obj []])]) "")
      = .ok (.obj [("a", .arr [.num 1])]) ∧
    JValue.obj [("a", .arr [.num 1])] ≠ .obj [("a", .arr [.num 1, .obj []])] := by
  refine ⟨by decide, by decide⟩

/-- C1 (amended): for every document whose root is an object and which is
round-trip well formed (wfJ: keys nonempty without path metacharacters
and strictly sorted as in the BTreeMap representation, no field value is
an empty object or empty array, no array nests another array directly, a
vanishing array element is exactly the empty object, and the last element
of every array produces at least one flatten pair), reconstructing the
flattened pairs returns exactly the original document; index gaps left by
empty-object elements are refilled with empty objects by densification
and arrays of such documents are never shrunk. -/
theorem C1_flatten_reconstruct_roundtrip (action_name : String)
    (fields : List (String × JValue)) (hwf : wfJ (.obj fields) = true) :
    reverse_flatten_all (flatten_json_value action_name .input (.obj fields) "")
      = .ok (.obj fields) :=
  flatten_roundtrip action_name fields hwf

/-- C1 (witness): a concrete well-formed document with a densified array
slot round-trips exactly. -/
theorem C1_roundtrip_witness :
    wfJ (.obj [("arr", .arr [.obj [], .num 2]), ("name", .obj [("c", .str "x")])]) = true ∧
    reverse_flatten_all (flatten_json_value "act" .input
        (.obj [("arr", .arr [.obj [], .num 2]), ("name", .obj [("c", .str "x")])]) "")
      = .ok (.obj [("arr", .arr [.obj [], .num 2]), ("name", .obj [("c", .str "x")])]) :=
  ⟨by decide, C1_flatten_reconstruct_roundtrip "act"
    [("arr", .arr [.obj [], .num 2]), ("name", .obj [("c", .str "x")])] (by decide)⟩

/-- C10 (counterexample): reconstruction does not return an object for
every input pair list; on conflicting paths it panics (modelled as
Except.error): here the first pair stores a number under key a and the
second pair then tries to descend into a as an array. -/
theorem C10_panic_counterexample :
    reverse_flatten_all [("a", .num 1), ("a[0].b", .num 2)]
      = .error "Expected an array" := by decide

/-- C10 (amended): whenever reverse_flatten_all returns a value (it can
instead panic on conflicting paths), that value is a JSON object — never
an array, scalar or null; the empty pair list yields the empty object. -/
theorem C10_reverse_flatten_root_obj :
    (∀ (pairs : List (String × JValue)) (v : JValue),
      reverse_flatten_all pairs = .ok v → ∃ fields, v = .obj fields) ∧
    reverse_flatten_all [] = .ok (.obj []) := by
  constructor
  · intro pairs v h
    simp only [reverse_flatten_all] at h
    rcases hfold : pairs.foldlM
        (fun root kv => setPath (splitOnCharS '.' (stripDollarDot kv.1)) kv.2 root)
        ([] : List (String × JValue)) with e | m
    · rw [hfold] at h
      simp [Except.map] at h
    · rw [hfold] at h
      simp only [Except.map, Except.ok.injEq] at h
      exact ⟨m, h.symm⟩
  · rfl

/-- C10 (witness): the amended theorem applied at a concrete pair list. -/
theorem C10_root_obj_witness :
    ∃ fields, JValue.obj [("a", .num 1)] = .obj fields :=
  C10_reverse_flatten_root_obj.1 [("a", .num 1)] (.obj [("a", .num 1)]) (by decide)

/-- Embedding of json_path::model::Expression. -/
structure Expression where
  mk ::
  value : String
deriving DecidableEq, Repr

/-- Embedding of resolve_value_expression_from_slice_index
(har_resolver.rs): walk the indexes most recent first, flatten them and
return the first (path, value) pair whose stored value equals the target,
as a path expression.  The HashMap iteration order of the Rust code is
modelled by the association list order. -/
def resolve_value_expression_from_slice_index (value : JValue)
    (indexes : List (List (String × JValue))) : Option Expression :=
  (((indexes.reverse.flatMap fun idx => idx).filter fun q => q.2 == value).head?).map
    fun q => Expression.mk q.1

/-- Embedding of resolve_value_expression_from_prev: restrict to the
indexes strictly before the current action and search most recent
first. -/
def resolve_value_expression_from_prev (order : Nat) (value : JValue)
    (response_indexes : List (List (String × JValue))) : Option Expression :=
  resolve_value_expression_from_slice_index value (response_indexes.take order)

theorem filter_head_eq_find (p : (String × JValue) → Bool) :
    ∀ l : List (String × JValue), (l.filter p).head? = l.find? p := by
  intro l
  induction l with
  | nil => rfl
  | cons x xs ih =>
    by_cases h : p x
    · simp [List.filter_cons, List.find?_cons, h]
    · simp only [List.filter_cons, List.find?_cons, h]
      simpa using ih

theorem findQ_append_none {α : Type} {p : α → Bool} :
    ∀ {a : List α} (b : List α), a.find? p = none → (a ++ b).find? p = b.find? p := by
  intro a
  induction a with
  | nil => intro b _; rfl
  | cons x xs ih =>
    intro b h
    cases hx : p x
    · have h2 : xs.find? p = none := by simpa [List.find?, hx] using h
      simpa [List.find?, hx] using ih b h2
    · exfalso
      simp [List.find?, hx] at h

theorem findQ_append_some {α : Type} {p : α → Bool} :
    ∀ {a : List α} {x : α} (b : List α), a.find? p = some x → (a ++ b).find? p = some x := by
  intro a
  induction a with
  | nil => intro x b h; simp [List.find?] at h
  | cons y ys ih =>
    intro x b h
    cases hy : p y
    · have h2 : ys.find? p = some x := by simpa [List.find?, hy] using h
      simpa [List.find?, hy] using ih b h2
    · have h2 : y = x := by simpa [List.find?, hy] using h
      subst h2
      simp [List.find?, hy]

theorem resolve_slice_eq_find (value : JValue) (indexes : List (List (String × JValue))) :
    resolve_value_expression_from_slice_index value indexes
      = ((indexes.reverse.flatMap fun idx => idx).find? fun q => q.2 == value).map
          fun q => Expression.mk q.1 := by
  rw [resolve_value_expression_from_slice_index, filter_head_eq_find]

/-- C4: the resolver scans the prior indexes in reverse chronological
order and returns the first stored pair whose value is structurally equal
to the target, as a path expression: (1) if position j holds a match and
no position after j does, the answer is exactly the first matching pair
of index j (so a match in a later index always beats one in an earlier
index); (2) if no index holds a match the answer is none. -/
theorem C4_resolver_recency :
    (∀ (value : JValue) (indexes : List (List (String × JValue))) (j : Nat)
        (hj : j < indexes.length),
      (∃ q ∈ indexes.get ⟨j, hj⟩, q.2 = value) →
      (∀ (j2 : Nat) (hj2 : j2 < indexes.length), j < j2 →
        ∀ q ∈ indexes.get ⟨j2, hj2⟩, q.2 ≠ value) →
      resolve_value_expression_from_slice_index value indexes
        = ((indexes.get ⟨j, hj⟩).find? fun q => q.2 == value).map
            (fun q => Expression.mk q.1) ∧
      resolve_value_expression_from_slice_index value indexes ≠ none) ∧
    (∀ (value : JValue) (indexes : List (List (String × JValue))),
      (∀ idx ∈ indexes, ∀ q ∈ idx, q.2 ≠ value) →
      resolve_value_expression_from_slice_index value indexes = none) := by
  constructor
  · intro value indexes j hj hmatch hafter
    rw [resolve_slice_eq_find]
    set M := indexes.get ⟨j, hj⟩ with hM
    have hdecomp : indexes = indexes.take j ++ M :: indexes.drop (j + 1) := by
      rw [hM, List.get_eq_getElem, ← List.drop_eq_getElem_cons hj]
      exact (List.take_append_drop j indexes).symm
    have hrev : indexes.reverse
        = (indexes.drop (j + 1)).reverse ++ M :: (indexes.take j).reverse := by
      conv_lhs => rw [hdecomp]
      simp
    have hnoneB : ((indexes.drop (j + 1)).reverse.flatMap fun idx => idx).find?
        (fun q => q.2 == value) = none := by
      rw [List.find?_eq_none]
      intro q hq
      rw [List.mem_flatMap] at hq
      obtain ⟨idx, hidxmem, hqmem⟩ := hq
      rw [List.mem_reverse] at hidxmem
      obtain ⟨i, hi, hidx⟩ := List.getElem_of_mem hidxmem
      have hi2 : i < indexes.length - (j + 1) := by simpa using hi
      rw [List.getElem_drop] at hidx
      simp only [beq_iff_eq]
      refine hafter (j + 1 + i) (by omega) (by omega) q ?_
      rw [List.get_eq_getElem, hidx]
      exact hqmem
    cases hfM : M.find? (fun q => q.2 == value) with
    | none =>
      exfalso
      obtain ⟨q, hqmem, hqval⟩ := hmatch
      rw [List.find?_eq_none] at hfM
      exact hfM q hqmem (by simp [hqval])
    | some qm =>
      rw [hrev, List.flatMap_append, List.flatMap_cons]
      rw [findQ_append_none _ hnoneB, findQ_append_some _ hfM]
      refine ⟨?_, ?_⟩ <;> simp [hfM]
  · intro value indexes hnone
    rw [resolve_slice_eq_find]
    have hf : (indexes.reverse.flatMap fun idx => idx).find? (fun q => q.2 == value)
        = none := by
      rw [List.find?_eq_none]
      intro q hq
      rw [List.mem_flatMap] at hq
      obtain ⟨idx, hidxmem, hqmem⟩ := hq
      rw [List.mem_reverse] at hidxmem
      simp only [beq_iff_eq]
      exact hnone idx hidxmem q hqmem
    rw [hf]
    rfl

/-- C4 (witness): with two prior indexes both holding the target value,
the path returned comes from the later index. -/
theorem C4_resolver_recency_witness :
    resolve_value_expression_from_slice_index (.str "X")
        [[("$.a0.output.id", .str "X")], [("$.a1.output.id", .str "X")]]
      = some (Expression.mk "$.a1.output.id") := by
  have h := C4_resolver_recency.1 (.str "X")
    [[("$.a0.output.id", .str "X")], [("$.a1.output.id", .str "X")]] 1 (by decide)
    ⟨("$.a1.output.id", .str "X"), by decide, rfl⟩
    (by
      intro j2 hj2 hgt q hq
      exfalso
      simp at hj2
      omega)
  rw [h.1]
  decide

/-- Lowercase hex digit, as serde_json renders control-character
escapes. -/
def hexDigit (n : Nat) : Char :=
  if n < 10 then digitChar n
  else if n = 10 then 'a'
  else if n = 11 then 'b'
  else if n = 12 then 'c'
  else if n = 13 then 'd'
  else if n = 14 then 'e'
  else 'f'

/-- serde_json string escaping for one character. -/
def escapeChar (c : Char) : List Char :=
  if c = '"' then ['\\', '"']
  else if c = '\\' then ['\\', '\\']
  else if c.toNat = 8 then ['\\', 'b']
  else if c.toNat = 9 then ['\\', 't']
  else if c.toNat = 10 then ['\\', 'n']
  else if c.toNat = 12 then ['\\', 'f']
  else if c.toNat = 13 then ['\\', 'r']
  else if c.toNat < 32 then
    ['\\', 'u', '0', '0', hexDigit (c.toNat / 16), hexDigit (c.toNat % 16)]
  else [c]

/-- Decimal rendering of an integer, the embedding of Display for i64. -/
def intToString (n : Int) : String :=
  if n < 0 then "-" ++ natStr n.natAbs else natStr n.toNat

/-- Compact JSON rendering, the embedding of serde_json::Value::to_string. -/
def jsonToString (v : JValue) : String :=
  match v with
  | .null => "null"
  | .bool true => "true"
  | .bool false => "false"
  | .num n => intToString n
  | .str s => "\"" ++ String.mk (s.toList.flatMap escapeChar) ++ "\""
  | .arr l => "[" ++ goArr l ++ "]"
  | .obj fs => "\x7b" ++ goObj fs ++ "\x7d"
where
  goArr : List JValue → String
    | [] => ""
    | [x] => jsonToString x
    | x :: rest => jsonToString x ++ "," ++ goArr rest
  goObj : List (String × JValue) → String
    | [] => ""
    | [(k, w)] => "\"" ++ String.mk (k.toList.flatMap escapeChar) ++ "\":" ++ jsonToString w
    | (k, w) :: rest =>
      "\"" ++ String.mk (k.toList.flatMap escapeChar) ++ "\":" ++ jsonToString w ++ ","
        ++ goObj rest

/-- Rust str::trim_matches applied with the double-quote character: strip
all leading and trailing quote characters. -/
def trimQuotes (s : String) : String :=
  String.mk (((s.toList.dropWhile fun c => c = '"').reverse.dropWhile
    fun c => c = '"').reverse)

/-- Rust str::contains for a string pattern (substring containment). -/
def strContains (hay pat : String) : Bool := go pat.toList hay.toList
where
  go : List Char → List Char → Bool
    | p, [] => p.isEmpty
    | p, c :: rest => p.isPrefixOf (c :: rest) || go p rest

/-- Embedding of as_string (assertion/check.rs): quote-trimmed renderings
joined by commas. -/
def as_string (val : List JValue) : String :=
  match val.map fun i => trimQuotes (jsonToString i) with
  | [] => ""
  | x :: rest => rest.foldl (fun s1 s2 => s1 ++ "," ++ s2) x

/-- Embedding of assertion::model::ComparisonType. -/
inductive ComparisonType where
  | equalTo
  | contains
  | greaterThan
  | greaterThanOrEqualTo
  | lessThan
  | lessThanOrEqualTo
deriving DecidableEq, Repr

/-- Embedding of assertion::model::Operation. -/
inductive Operation where
  | sum
  | avg
  | count
deriving DecidableEq, Repr

/-- Embedding of assertion::model::ValueProvider. -/
structure ValueProvider where
  mk ::
  expression : Option Expression
  value : Option JValue
deriving DecidableEq, Repr

/-- Embedding of assertion::model::Function (named AFunction because
Function is a Lean namespace). -/
structure AFunction where
  mk ::
  operation : Operation
  parameters : List ValueProvider
deriving DecidableEq, Repr

/-- Embedding of assertion::model::AssertionItem. -/
structure AssertionItem where
  mk ::
  function : Option AFunction
  value_provider : Option ValueProvider
deriving DecidableEq, Repr

/-- AssertionItem::from_expression. -/
def AssertionItem.from_expression (expression : Expression) : AssertionItem :=
  AssertionItem.mk none (some (ValueProvider.mk (some expression) none))

/-- AssertionItem::from_value. -/
def AssertionItem.from_value (value : JValue) : AssertionItem :=
  AssertionItem.mk none (some (ValueProvider.mk none (some value)))

/-- Embedding of assertion::model::Assertion (timestamps omitted; they
play no role in checking). -/
structure Assertion where
  mk ::
  customer_id : String
  test_case_id : String
  id : String
  left : AssertionItem
  right : AssertionItem
  comparison_type : ComparisonType
  negate : Bool
deriving DecidableEq, Repr

/-- Embedding of assertion::model::AssertionResult. -/
structure AssertionResult where
  mk ::
  assertion_id : String
  success : Bool
  message : Option String
deriving DecidableEq, Repr

/-- AssertionResult::from_error. -/
def AssertionResult.from_error (id message : String) : AssertionResult :=
  AssertionResult.mk id false (some message)

/-- AssertionResult::of_success. -/
def AssertionResult.of_success (id : String) : AssertionResult :=
  AssertionResult.mk id true none

/-- Rust Debug formatting of a String as it appears inside the EqualTo
failure message; escaping of special characters inside the string is not
modelled (no claim depends on message content). -/
def rustDebug (s : String) : String := "\"" ++ s ++ "\""

/-- serde_json Value::as_number restricted to the integer model. -/
def JValue.asNum : JValue → Option Int
  | .num n => some n
  | _ => none

/-- Embedding of check_greater_than (assertion/check.rs).  The
get(0).unwrap() calls of the source are guarded by the length test and
modelled with getD; numeric comparison is on the integer model. -/
def check_greater_than (assertion : Assertion) (greater or_equal : Bool)
    (left right : List JValue) : AssertionResult :=
  if left.length == right.length && left.length == 1 then
    match (left.getD 0 .null).asNum, (right.getD 0 .null).asNum with
    | some a, some b =>
      let success :=
        if greater then (if or_equal then decide (a ≥ b) else decide (a > b))
        else (if or_equal then decide (a ≤ b) else decide (a < b))
      if success ^^ assertion.negate then
        AssertionResult.of_success assertion.id
      else
        AssertionResult.from_error assertion.id
          (as_string left ++ " is" ++ (if assertion.negate then "" else " not") ++ " "
            ++ (if greater then "greater" else "less") ++ " "
            ++ (if or_equal then "or equal to" else "") ++ " " ++ as_string right)
    | _, _ =>
      AssertionResult.from_error assertion.id
        (as_string left ++ " and " ++ as_string right ++ " cannot be compared as numbers")
  else
    AssertionResult.from_error assertion.id "Lists cannot be compared as numbers!"

/-- Embedding of check (assertion/check.rs). -/
def check (assertion : Assertion) (left right : List JValue) : AssertionResult :=
  match assertion.comparison_type with
  | .equalTo =>
    let equals := left == right
    if equals ^^ assertion.negate then
      AssertionResult.of_success assertion.id
    else
      AssertionResult.from_error assertion.id
        ((if assertion.negate then "not " else "") ++ "expected: "
          ++ rustDebug (as_string left) ++ ", but got: " ++ rustDebug (as_string right))
  | .contains =>
    let all_contained := right.all fun v => left.contains v
    if all_contained then
      AssertionResult.of_success assertion.id
    else
      if left.length == right.length && left.length == 1 then
        let left_item := left.getD 0 .null
        let right_item := right.getD 0 .null
        let contains := strContains (jsonToString left_item) (trimQuotes (jsonToString right_item))
        if contains ^^ assertion.negate then
          AssertionResult.of_success assertion.id
        else
          AssertionResult.from_error assertion.id
            (as_string left ++ " does" ++ (if assertion.negate then "" else " not")
              ++ " contain " ++ as_string right)
      else
        AssertionResult.from_error assertion.id
          (as_string left ++ " and " ++ as_string right ++ " cannot be compared with contains")
  | .greaterThan => check_greater_than assertion true false left right
  | .greaterThanOrEqualTo => check_greater_than assertion true true left right
  | .lessThan => check_greater_than assertion false false left right
  | .lessThanOrEqualTo => check_greater_than assertion false true left right

/-- A bare assertion with the given comparison type and negate flag (the
items play no role in check). -/
def mkCheckAssertion (ct : ComparisonType) (negate : Bool) : Assertion :=
  Assertion.mk "" "" "" (AssertionItem.mk none none) (AssertionItem.mk none none) ct negate

/-- The same assertion with the negate flag set to b. -/
def setNegate (a : Assertion) (b : Bool) : Assertion :=
  Assertion.mk a.customer_id a.test_case_id a.id a.left a.right a.comparison_type b

theorem success_of_ite (id m : String) (c : Bool) :
    (if c = true then AssertionResult.of_success id
     else AssertionResult.from_error id m).success = c := by
  cases c <;> simp [AssertionResult.of_success, AssertionResult.from_error]

theorem check_gt_xor (a : Assertion) (g oe : Bool) (x y : Int) :
    (check_greater_than (setNegate a true) g oe [.num x] [.num y]).success
      = !(check_greater_than (setNegate a false) g oe [.num x] [.num y]).success := by
  have e1 : ∀ nb : Bool, check_greater_than (setNegate a nb) g oe [.num x] [.num y]
      = (if ((if g then (if oe then decide (x ≥ y) else decide (x > y))
            else (if oe then decide (x ≤ y) else decide (x < y))) ^^ nb) = true
        then AssertionResult.of_success a.id
        else AssertionResult.from_error a.id
          (as_string [JValue.num x] ++ " is" ++ (if nb then "" else " not") ++ " "
            ++ (if g then "greater" else "less") ++ " "
            ++ (if oe then "or equal to" else "") ++ " " ++ as_string [JValue.num y])) := by
    intro nb
    rfl
  rw [e1 true, e1 false, success_of_ite, success_of_ite]
  cases (if g then (if oe then decide (x ≥ y) else decide (x > y))
      else (if oe then decide (x ≤ y) else decide (x < y))) <;> rfl

theorem check_contains_eq (a : Assertion) (l r : List JValue)
    (hct : a.comparison_type = .contains) :
    check a l r =
      (if (r.all fun v => l.contains v) = true then AssertionResult.of_success a.id
       else if (l.length == r.length && l.length == 1) = true then
         (if (strContains (jsonToString (l.getD 0 .null))
              (trimQuotes (jsonToString (r.getD 0 .null))) ^^ a.negate) = true then
            AssertionResult.of_success a.id
          else AssertionResult.from_error a.id
            (as_string l ++ " does" ++ (if a.negate then "" else " not")
              ++ " contain " ++ as_string r))
       else AssertionResult.from_error a.id
         (as_string l ++ " and " ++ as_string r ++ " cannot be compared with contains")) := by
  obtain ⟨c1, c2, id, L, R, ct, nb⟩ := a
  simp only at hct
  subst hct
  rfl

theorem check_gt_nonnum (a : Assertion) (g oe : Bool) (l r : List JValue)
    (h : (l.getD 0 JValue.null).asNum = none ∨ (r.getD 0 JValue.null).asNum = none) :
    (check_greater_than a g oe l r).success = false := by
  unfold check_greater_than
  cases hlen : (l.length == r.length && l.length == 1)
  · simp [hlen, AssertionResult.from_error]
  · cases hl : (l.getD 0 JValue.null).asNum with
    | none =>
      cases hr : (r.getD 0 JValue.null).asNum <;>
        simp [hlen, hl, hr, AssertionResult.from_error]
    | some x =>
      cases hr : (r.getD 0 JValue.null).asNum with
      | none => simp [hlen, hl, hr, AssertionResult.from_error]
      | some y =>
        exfalso
        rcases h with h0 | h0
        · rw [hl] at h0; exact Option.noConfusion h0
        · rw [hr] at h0; exact Option.noConfusion h0

/-- C3 (counterexample): the XOR law fails for Contains: when every right
value is a member of the left list the check succeeds for both polarities
of negate, here with left = right = the singleton string a. -/
theorem C3_xor_counterexample :
    (check (mkCheckAssertion .contains true) [.str "a"] [.str "a"]).success = true ∧
    (check (mkCheckAssertion .contains false) [.str "a"] [.str "a"]).success = true :=
  ⟨by decide, by decide⟩

/-- C3 (amended): the negation XOR law holds for EqualTo on all value
lists, for the four numeric comparisons on one-element integer lists, and
for Contains whenever membership containment fails and both lists have
exactly one element (the substring fallback branch); in the remaining
cases negate is ignored: a satisfied Contains succeeds for both
polarities, and shape mismatches - non-singleton lists for the numeric
comparisons and for the Contains fallback, and singleton lists whose
element on either side is not a number for the numeric comparisons - fail
for both polarities. -/
theorem C3_xor_amended :
    (∀ (a : Assertion) (l r : List JValue), a.comparison_type = .equalTo →
      (check (setNegate a true) l r).success = !(check (setNegate a false) l r).success) ∧
    (∀ (a : Assertion) (x y : Int),
      (a.comparison_type = .greaterThan ∨ a.comparison_type = .greaterThanOrEqualTo ∨
        a.comparison_type = .lessThan ∨ a.comparison_type = .lessThanOrEqualTo) →
      (check (setNegate a true) [.num x] [.num y]).success
        = !(check (setNegate a false) [.num x] [.num y]).success) ∧
    (∀ (a : Assertion) (lv rv : JValue), a.comparison_type = .contains →
      ([rv].all fun v => [lv].contains v) = false →
      (check (setNegate a true) [lv] [rv]).success
        = !(check (setNegate a false) [lv] [rv]).success) ∧
    (∀ (a : Assertion) (l r : List JValue) (b : Bool), a.comparison_type = .contains →
      (r.all fun v => l.contains v) = true →
      (check (setNegate a b) l r).success = true) ∧
    (∀ (a : Assertion) (l r : List JValue) (b : Bool),
      (a.comparison_type = .greaterThan ∨ a.comparison_type = .greaterThanOrEqualTo ∨
        a.comparison_type = .lessThan ∨ a.comparison_type = .lessThanOrEqualTo) →
      (l.length == r.length && l.length == 1) = false →
      (check (setNegate a b) l r).success = false) ∧
    (∀ (a : Assertion) (l r : List JValue) (b : Bool), a.comparison_type = .contains →
      (r.all fun v => l.contains v) = false →
      (l.length == r.length && l.length == 1) = false →
      (check (setNegate a b) l r).success = false) ∧
    (∀ (a : Assertion) (l r : List JValue) (b : Bool),
      (a.comparison_type = .greaterThan ∨ a.comparison_type = .greaterThanOrEqualTo ∨
        a.comparison_type = .lessThan ∨ a.comparison_type = .lessThanOrEqualTo) →
      ((l.getD 0 JValue.null).asNum = none ∨ (r.getD 0 JValue.null).asNum = none) →
      (check (setNegate a b) l r).success = false) := by
  refine ⟨?_, ?_, ?_, ?_, ?_, ?_, ?_⟩
  · intro a l r hct
    simp only [check, setNegate, hct]
    cases hb : (l == r) <;>
      simp [hb, AssertionResult.of_success, AssertionResult.from_error]
  · intro a x y hct
    rcases hct with h | h | h | h <;>
      simp only [check, setNegate, h] <;>
      exact check_gt_xor a _ _ x y
  · intro a lv rv hct hall
    have hna : ¬ (([rv].all fun v => [lv].contains v) = true) := by rw [hall]; simp
    rw [check_contains_eq (setNegate a true) _ _ hct,
      check_contains_eq (setNegate a false) _ _ hct]
    rw [if_neg hna, if_neg hna,
      if_pos (show ([lv].length == [rv].length && [lv].length == 1) = true from rfl),
      if_pos (show ([lv].length == [rv].length && [lv].length == 1) = true from rfl)]
    rw [success_of_ite, success_of_ite]
    cases hc : strContains (jsonToString ([lv].getD 0 .null))
        (trimQuotes (jsonToString ([rv].getD 0 .null))) <;> rfl
  · intro a l r b hct hall
    rw [check_contains_eq (setNegate a b) _ _ hct, if_pos hall]
    rfl
  · intro a l r b hct hlen
    rcases hct with h | h | h | h <;>
      simp [check, setNegate, h, check_greater_than, hlen, AssertionResult.from_error]
  · intro a l r b hct hall hlen
    rw [check_contains_eq (setNegate a b) _ _ hct, if_neg (by rw [hall]; simp),
      if_neg (by rw [hlen]; simp)]
    rfl
  · intro a l r b hct hnum
    rcases hct with h | h | h | h <;> simp only [check, setNegate, h] <;>
      exact check_gt_nonnum _ _ _ l r hnum

/-- C3 (witness): the XOR law instantiated: EqualTo on equal singletons,
GreaterThan on 17 and 5, Contains fallback on the message strings, and the
both-polarity failure of GreaterThan on non-numeric singletons. -/
theorem C3_xor_amended_witness :
    (check (setNegate (mkCheckAssertion .equalTo false) true) [.str "a"] [.str "a"]).success
      = !(check (setNegate (mkCheckAssertion .equalTo false) false) [.str "a"] [.str "a"]).success ∧
    (check (setNegate (mkCheckAssertion .greaterThan false) true) [.num 17] [.num 5]).success
      = !(check (setNegate (mkCheckAssertion .greaterThan false) false) [.num 17] [.num 5]).success ∧
    (check (setNegate (mkCheckAssertion .contains false) true)
        [.str "a message"] [.str "message"]).success
      = !(check (setNegate (mkCheckAssertion .contains false) false)
        [.str "a message"] [.str "message"]).success ∧
    (check (setNegate (mkCheckAssertion .greaterThan false) true)
        [.str "a"] [.str "b"]).success = false ∧
    (check (setNegate (mkCheckAssertion .greaterThan false) false)
        [.str "a"] [.str "b"]).success = false :=
  ⟨C3_xor_amended.1 (mkCheckAssertion .equalTo false) [.str "a"] [.str "a"] rfl,
   C3_xor_amended.2.1 (mkCheckAssertion .greaterThan false) 17 5 (Or.inl rfl),
   C3_xor_amended.2.2.1 (mkCheckAssertion .contains false)
     (.str "a message") (.str "message") rfl (by decide),
   C3_xor_amended.2.2.2.2.2.2 (mkCheckAssertion .greaterThan false)
     [.str "a"] [.str "b"] true (Or.inl rfl) (Or.inl rfl),
   C3_xor_amended.2.2.2.2.2.2 (mkCheckAssertion .greaterThan false)
     [.str "a"] [.str "b"] false (Or.inl rfl) (Or.inl rfl)⟩

/-- C8: Contains semantics: (1) if every right value is a member of the
left list the check succeeds (for either polarity of negate); (2)
otherwise, when both lists have exactly one element, the check falls back
to substring containment of the serialized element forms (the right one
quote-trimmed), XORed with negate; (3) otherwise the result is the
dedicated cannot-be-compared error, not a plain containment failure; and
the two concrete cases of the claim hold. -/
theorem C8_contains_semantics :
    (∀ (a : Assertion) (l r : List JValue), a.comparison_type = .contains →
      (r.all fun v => l.contains v) = true →
      check a l r = AssertionResult.of_success a.id) ∧
    (∀ (a : Assertion) (lv rv : JValue), a.comparison_type = .contains →
      ([rv].all fun v => [lv].contains v) = false →
      (check a [lv] [rv]).success
        = (strContains (jsonToString lv) (trimQuotes (jsonToString rv)) ^^ a.negate)) ∧
    (∀ (a : Assertion) (l r : List JValue), a.comparison_type = .contains →
      (r.all fun v => l.contains v) = false →
      (l.length == r.length && l.length == 1) = false →
      check a l r = AssertionResult.from_error a.id
        (as_string l ++ " and " ++ as_string r ++ " cannot be compared with contains")) ∧
    (check (mkCheckAssertion .contains false) [.str "a message"] [.str "message"]).success
      = true ∧
    (check (mkCheckAssertion .contains false) [.str "a", .str "b"] [.str "c"]).success
      = false := by
  refine ⟨?_, ?_, ?_, by decide, by decide⟩
  · intro a l r hct hall
    rw [check_contains_eq a _ _ hct, if_pos hall]
  · intro a lv rv hct hall
    rw [check_contains_eq a _ _ hct, if_neg (by rw [hall]; simp), if_pos (show ([lv].length == [rv].length && [lv].length == 1) = true from rfl),
      success_of_ite]
    rfl
  · intro a l r hct hall hlen
    rw [check_contains_eq a _ _ hct, if_neg (by rw [hall]; simp), if_neg (by rw [hlen]; simp)]

/-- C8 (witness): the incomparable branch at a concrete input: two
left values against one right value yield the cannot-be-compared error. -/
theorem C8_contains_witness :
    check (mkCheckAssertion .contains false) [.str "a", .str "b"] [.str "c"]
      = AssertionResult.from_error ""
          (as_string [.str "a", .str "b"] ++ " and " ++ as_string [.str "c"]
            ++ " cannot be compared with contains") :=
  C8_contains_semantics.2.2.1 (mkCheckAssertion .contains false)
    [.str "a", .str "b"] [.str "c"] rfl (by decide) (by decide)

/-- url.replace("-", "_") in build_action_name_from_url (har_resolver.rs:341). -/
def dashToUnderscore (url : String) : String :=
  String.mk (url.toList.map fun c => if c = '-' then '_' else c)

/-- formatted_name.split("/").last().unwrap(); split always yields at least
one piece, so the default of getLastD is unreachable (har_resolver.rs:342). -/
def lastSegment (url : String) : String :=
  (splitOnCharS '/' (dashToUnderscore url)).getLastD ""

/-- Whether the regex matching a question mark and everything after it finds
a match in s; URLs contain no newline, so the match exists exactly when a
question mark occurs (har_resolver.rs:343-344). -/
def hasQuery (s : String) : Bool := s.toList.any fun c => c = '?'

/-- re.replace(base_name, "") for that regex: drop everything from the first
question mark on (har_resolver.rs:362,364). -/
def stripQuery (s : String) : String :=
  String.mk (s.toList.takeWhile fun c => c ≠ '?')

/-- The single match of the query regex: the substring from the first
question mark to the end of the segment (har_resolver.rs:344). -/
def queryOf (s : String) : String :=
  String.mk (s.toList.dropWhile fun c => c ≠ '?')

/-- m.split("=").last() of the match text (har_resolver.rs:346-348); split
is never empty so the getLastD default is unreachable. -/
def lastSplitEq (m : String) : String := (splitOnCharS '=' m).getLastD ""

/-- The camelCase fold of har_resolver.rs:351-357: each uppercase character
becomes an underscore followed by its lowercase form. -/
def camelFold (v : String) : String :=
  String.mk (v.toList.flatMap fun c => if c.isUpper then ['_', c.toLower] else [c])

/-- Vec::join("_") (har_resolver.rs:360). -/
def joinUnderscores : List String → String
  | [] => ""
  | [s] => s
  | s :: rest => s ++ "_" ++ joinUnderscores rest

/-- Embedding of build_action_name_from_url (har_resolver.rs:340-366).
find_iter of the query regex yields at most the one match starting at the
first question mark; its matches are never empty (they contain the question
mark), so the is_empty filter of line 345 never drops anything.  Numeric
characters are modelled as the ASCII digits that occur in URLs. -/
def build_action_name_from_url (order : Nat) (url : String) : String :=
  let base_name := lastSegment url
  let qmatches := if hasQuery base_name then [queryOf base_name] else []
  let suffixStr := joinUnderscores
    (List.take 2 (List.map camelFold
      (List.filter (fun s0 => !(s0.toList.all rsIsDigit))
        (List.filter (fun v => decide (v ≠ ""))
          (List.map lastSplitEq qmatches)))))
  if suffixStr = "" then stripQuery base_name ++ "_" ++ natStr order
  else stripQuery base_name ++ suffixStr ++ "_" ++ natStr order

/-- The claim reading of the name derivation: the candidate suffixes are the
values of the individual query parameters, i.e. for each piece of the query
string between ampersands, the part after its equals sign, with the same
nonempty and non-numeric filters, camelCase fold, and cap of two. -/
def claimParamValues (q : String) : List String :=
  (splitOnCharS '&' (String.mk (q.toList.drop 1))).map lastSplitEq

/-- Action name as the claim describes it: per-parameter suffixes. -/
def claimActionName (order : Nat) (url : String) : String :=
  let base_name := lastSegment url
  let vals := if hasQuery base_name then claimParamValues (queryOf base_name) else []
  let suffixStr := joinUnderscores
    (List.take 2 (List.map camelFold
      (List.filter (fun s0 => !(s0.toList.all rsIsDigit))
        (List.filter (fun v => decide (v ≠ "")) vals))))
  if suffixStr = "" then stripQuery base_name ++ "_" ++ natStr order
  else stripQuery base_name ++ suffixStr ++ "_" ++ natStr order

/-- What the code computes instead: at most one suffix, taken from the
substring after the last equals sign of the whole query string. -/
def amendedActionName (order : Nat) (url : String) : String :=
  let base_name := lastSegment url
  let v := lastSplitEq (queryOf base_name)
  if hasQuery base_name && decide (v ≠ "") && !(v.toList.all rsIsDigit) then
    stripQuery base_name ++ camelFold v ++ "_" ++ natStr order
  else stripQuery base_name ++ "_" ++ natStr order

theorem camelFold_ne_empty (v : String) (h : v ≠ "") : camelFold v ≠ "" := by
  cases hv : v.toList with
  | nil => exact absurd (strExt hv) h
  | cons c cs =>
    intro hc
    have h1 : (camelFold v).toList = [] := by rw [hc]; rfl
    rw [camelFold, toList_mk, hv, List.flatMap_cons] at h1
    cases hcu : c.isUpper <;> simp [hcu] at h1

/-- C9 (counterexample): with two query parameters a=Foo and b=2 the claim
derives a suffix from the non-numeric value Foo, but the code looks only at
the part after the last equals sign of the whole query string, here the
numeric 2, and so appends no suffix at all. -/
theorem C9_name_counterexample :
    build_action_name_from_url 0 "https://h/p?a=Foo&b=2" = "p_0" ∧
    claimActionName 0 "https://h/p?a=Foo&b=2" = "p_foo_0" ∧
    build_action_name_from_url 0 "https://h/p?a=Foo&b=2" ≠
      claimActionName 0 "https://h/p?a=Foo&b=2" :=
  ⟨by decide, by decide, by decide⟩

/-- C9 (amended): the derived name is the last path segment of the URL with
dashes replaced by underscores and the query stripped, then at most ONE
suffix, taken from the substring after the last equals sign of the entire
query string, kept only when it is nonempty and not all numeric, camelCase
folded, and finally an underscore and the order; the repository regression
case graphql_board_card_create_1 follows. -/
theorem C9_action_name_amended :
    (∀ (order : Nat) (url : String),
      build_action_name_from_url order url = amendedActionName order url) ∧
    build_action_name_from_url 1
        "https://layima.atlassian.net/jsw2/graphql?operation=BoardCardCreate" =
      "graphql_board_card_create_1" := by
  constructor
  · intro order url
    simp only [build_action_name_from_url, amendedActionName]
    cases hq : hasQuery (lastSegment url)
    · simp [joinUnderscores]
    · by_cases hne : lastSplitEq (queryOf (lastSegment url)) = ""
      · simp [hne, joinUnderscores]
      · cases hdig : (lastSplitEq (queryOf (lastSegment url))).toList.all rsIsDigit
        all_goals
          have hdig2 : (lastSplitEq (queryOf (lastSegment url))).data.all rsIsDigit
              = (lastSplitEq (queryOf (lastSegment url))).toList.all rsIsDigit := rfl
        · rw [hdig] at hdig2
          simp [hne, hdig2, joinUnderscores, camelFold_ne_empty _ hne]
        · rw [hdig] at hdig2
          simp [hne, hdig2, joinUnderscores]
  · decide

/-- HAR post data (har crate v1_2, used by har_resolver.rs): the body text
is modelled by the outcome of serde_json::from_str on it, the only use the
indexers make of it; none models an absent text. -/
structure PostData where
  mime_type : String
  text : Option (Except String JValue)
deriving Repr

/-- HAR request: the URL and the optional posted body. -/
structure HRequest where
  url : String
  post_data : Option PostData
deriving Repr

/-- HAR response content: the optional body text as its parse outcome. -/
structure Content where
  text : Option (Except String JValue)
deriving Repr

/-- HAR response. -/
structure HResponse where
  content : Content
deriving Repr

/-- One HAR exchange (request plus response). -/
structure Entries where
  request : HRequest
  response : HResponse
deriving Repr

/-- build_action_name (har_resolver.rs:334-338). -/
def build_action_name (order : Nat) (request : HRequest) : String :=
  build_action_name_from_url order request.url

/-- build_index_from_value (har_resolver.rs:252-266); the HashMap filled by
flatten_json_value is modelled as the pair list in insertion order. -/
def build_index_from_value (action_name : String) (response_value : JValue)
    (pt : FlattenKeyPrefixType) : List (String × JValue) :=
  flatten_json_value action_name pt response_value ""

/-- build_response_index_from_value (har_resolver.rs:238-243). -/
def build_response_index_from_value (action_name : String)
    (response_value : JValue) : List (String × JValue) :=
  build_index_from_value action_name response_value .output

/-- build_request_index_from_value (har_resolver.rs:245-250). -/
def build_request_index_from_value (action_name : String)
    (input_map : JValue) : List (String × JValue) :=
  build_index_from_value action_name input_map .assertionExpression

/-- build_response_index (har_resolver.rs:219-236): a missing body or a
parse error yields the empty index; the function is total. -/
def build_response_index (order : Nat) (entry : Entries) :
    List (String × JValue) :=
  match entry.response.content.text with
  | none => []
  | some parsed =>
    match parsed with
    | .ok response_value =>
      build_response_index_from_value (build_action_name order entry.request)
        response_value
    | .error _ => []

/-- build_request_index (har_resolver.rs:318-332): when the post data is
present with a text body and an application/json mime type, the body is
parsed with .unwrap(); the Except.error result models that panic. -/
def build_request_index (order : Nat) (entry : Entries) :
    Except String (List (String × JValue)) :=
  match entry.request.post_data with
  | none => .ok []
  | some post_data =>
    match post_data.text with
    | none => .ok []
    | some parsed =>
      if strContains post_data.mime_type "application/json" then
        match parsed with
        | .ok input_map =>
          .ok (build_request_index_from_value
            (build_action_name order entry.request) input_map)
        | .error e => .error e
      else .ok []

/-- C2: the response-side half of the claim holds: any exchange whose
response body fails to parse contributes an empty response index, without
aborting.  The request-side half is false: an exchange whose posted body has
an application/json mime type but does not parse drives build_request_index
into the .unwrap() panic of har_resolver.rs:325, modelled as Except.error,
so index building does abort on a malformed request body. -/
theorem C2_malformed_body_handling (order : Nat) (entry : Entries)
    (e : String)
    (hresp : entry.response.content.text = some (Except.error e)) :
    build_response_index order entry = [] ∧
    build_request_index 0 (Entries.mk
        (HRequest.mk "https://h/p" (some (PostData.mk "application/json"
          (some (Except.error "expected value at line 1 column 1")))))
        (HResponse.mk (Content.mk none))) =
      Except.error "expected value at line 1 column 1" := by
  constructor
  · unfold build_response_index
    rw [hresp]
  · rfl

theorem C2_malformed_body_witness :
    build_response_index 0 (Entries.mk (HRequest.mk "u" none)
      (HResponse.mk (Content.mk (some (Except.error "expected value"))))) = [] ∧
    build_request_index 0 (Entries.mk
        (HRequest.mk "https://h/p" (some (PostData.mk "application/json"
          (some (Except.error "expected value at line 1 column 1")))))
        (HResponse.mk (Content.mk none))) =
      Except.error "expected value at line 1 column 1" :=
  C2_malformed_body_handling 0
    (Entries.mk (HRequest.mk "u" none)
      (HResponse.mk (Content.mk (some (Except.error "expected value")))))
    "expected value" rfl

/-- parameter::model::ParameterIn. -/
inductive ParameterIn where
  | header
  | cookie
  | query
  | body
deriving DecidableEq, Repr

/-- parameter::model::ParameterLocation. -/
inductive ParameterLocation where
  | header (name : String)
  | cookie (name : String)
  | query (name : String)
  | body (name : String)
deriving DecidableEq, Repr

/-- parameter::model::Parameter; the bookkeeping fields (ids, timestamps,
parameter_type) that the replay evaluators never read are elided. -/
structure Parameter where
  mk ::
  location : ParameterLocation
  value : JValue
  value_expression : Option Expression
deriving Repr

/-- Parameter::get_path. -/
def get_path (p : Parameter) : String :=
  match p.location with
  | .header name => name
  | .cookie name => name
  | .query name => name
  | .body name => name

/-- Parameter::get_parameter_in. -/
def get_parameter_in (p : Parameter) : ParameterIn :=
  match p.location with
  | .header _ => .header
  | .cookie _ => .cookie
  | .query _ => .query
  | .body _ => .body

/-- Embedding of evaluate_value (json_path/utils.rs:103-126), parameterized
by the JSONPath query evaluate_expression, an external library call. -/
def evaluate_value (evalExp : JValue → Expression → Except String (List JValue))
    (parameter : Parameter) (context : JValue) : Except String JValue :=
  match parameter.value_expression with
  | none => .ok parameter.value
  | some exp =>
    match evalExp context exp with
    | .ok values =>
      if parameter.value.isArr then .ok (.arr values)
      else
        match values.head? with
        | some val => .ok val
        | none => .error ("expression \"" ++ exp.value ++ "\" produces empty result")
    | .error err => .error err

/-- http.rs ReqParam. -/
structure ReqParam where
  mk ::
  key : String
  value : String
deriving DecidableEq, Repr

/-- Result::is_ok of the evaluation outcome. -/
def exceptIsOk : Except String JValue → Bool
  | .ok _ => true
  | .error _ => false

/-- The .unwrap() of build_http_params, total with a default that the
preceding is_ok filter makes unreachable. -/
def exceptUnwrapD : Except String JValue → JValue
  | .ok v => v
  | .error _ => JValue.null

/-- Embedding of build_http_params (run/execution.rs:257-288): keep the
parameters of the requested location, evaluate each, drop the failures, and
render the survivors with to_string().trim_matches of the double quote. -/
def build_http_params (evalExp : JValue → Expression → Except String (List JValue))
    (parameters : List Parameter) (context : JValue)
    (parameter_in : ParameterIn) : List ReqParam :=
  (((parameters.filter fun param => get_parameter_in param == parameter_in).map
      fun parameter => (parameter, evaluate_value evalExp parameter context)).filter
      fun pe => exceptIsOk pe.2).map
      fun pe => ReqParam.mk (get_path pe.1) (trimQuotes (jsonToString (exceptUnwrapD pe.2)))

/-- C5 (counterexample): a parameter whose literal value is an array and
whose expression query yields zero results does not fail: evaluation
returns the empty array, and build_http_params keeps the parameter instead
of dropping it, contradicting the claim that zero results always fail the
parameter. -/
theorem C5_empty_result_counterexample :
    evaluate_value (fun _ _ => .ok [])
        (Parameter.mk (.body "k") (.arr [.num 1]) (some (Expression.mk "$.x")))
        (.obj []) = .ok (.arr []) ∧
    build_http_params (fun _ _ => .ok [])
        [Parameter.mk (.body "k") (.arr [.num 1]) (some (Expression.mk "$.x"))]
        (.obj []) .body = [ReqParam.mk "k" "[]"] :=
  ⟨rfl, rfl⟩

/-- C5 (amended): without a value_expression the literal is returned
unconditionally; with one, the query result takes priority: an array
literal collects all results (also zero of them) into an array, a non-array
literal takes the first result and fails only when there is none; a query
error propagates; and a parameter whose evaluation fails is dropped from
the built request without affecting the others. -/
theorem C5_evaluate_value :
    (∀ (evalExp : JValue → Expression → Except String (List JValue))
        (p : Parameter) (ctx : JValue), p.value_expression = none →
      evaluate_value evalExp p ctx = .ok p.value) ∧
    (∀ (evalExp : JValue → Expression → Except String (List JValue))
        (p : Parameter) (ctx : JValue) (e : Expression) (vs : List JValue),
      p.value_expression = some e → evalExp ctx e = .ok vs →
      p.value.isArr = true →
      evaluate_value evalExp p ctx = .ok (.arr vs)) ∧
    (∀ (evalExp : JValue → Expression → Except String (List JValue))
        (p : Parameter) (ctx : JValue) (e : Expression) (v : JValue)
        (vs : List JValue),
      p.value_expression = some e → evalExp ctx e = .ok (v :: vs) →
      p.value.isArr = false →
      evaluate_value evalExp p ctx = .ok v) ∧
    (∀ (evalExp : JValue → Expression → Except String (List JValue))
        (p : Parameter) (ctx : JValue) (e : Expression),
      p.value_expression = some e → evalExp ctx e = .ok [] →
      p.value.isArr = false →
      evaluate_value evalExp p ctx =
        .error ("expression \"" ++ e.value ++ "\" produces empty result")) ∧
    (∀ (evalExp : JValue → Expression → Except String (List JValue))
        (p : Parameter) (ctx : JValue) (e : Expression) (msg : String),
      p.value_expression = some e → evalExp ctx e = .error msg →
      evaluate_value evalExp p ctx = .error msg) ∧
    (∀ (evalExp : JValue → Expression → Except String (List JValue))
        (ctx : JValue) (pin : ParameterIn) (l r : List Parameter)
        (p : Parameter),
      exceptIsOk (evaluate_value evalExp p ctx) = false →
      build_http_params evalExp (l ++ p :: r) ctx pin =
        build_http_params evalExp (l ++ r) ctx pin) := by
  refine ⟨?_, ?_, ?_, ?_, ?_, ?_⟩
  · intro evalExp p ctx h
    simp [evaluate_value, h]
  · intro evalExp p ctx e vs h1 h2 h3
    simp [evaluate_value, h1, h2, h3]
  · intro evalExp p ctx e v vs h1 h2 h3
    simp [evaluate_value, h1, h2, h3]
  · intro evalExp p ctx e h1 h2 h3
    simp [evaluate_value, h1, h2, h3]
  · intro evalExp p ctx e msg h1 h2
    simp [evaluate_value, h1, h2]
  · intro evalExp ctx pin l r p h
    cases hpin : get_parameter_in p == pin <;>
      simp [build_http_params, hpin, h]

/-- C5 (witness): the amended clauses instantiated: a literal without
expression, the empty-result failure of a non-array literal, and the drop
of that failing parameter from the built request. -/
theorem C5_evaluate_value_witness :
    evaluate_value (fun _ _ => .ok []) (Parameter.mk (.query "q") (.num 7) none)
        (.obj []) = .ok (.num 7) ∧
    evaluate_value (fun _ _ => .ok [])
        (Parameter.mk (.query "q") (.num 7) (some (Expression.mk "$.y")))
        (.obj []) =
      .error ("expression \"$.y\" produces empty result") ∧
    build_http_params (fun _ _ => .ok [])
        ([Parameter.mk (.query "a") (.num 1) none] ++
          Parameter.mk (.query "q") (.num 7) (some (Expression.mk "$.y")) ::
            [Parameter.mk (.query "b") (.num 2) none])
        (.obj []) .query =
      build_http_params (fun _ _ => .ok [])
        ([Parameter.mk (.query "a") (.num 1) none] ++
          [Parameter.mk (.query "b") (.num 2) none]) (.obj []) .query :=
  ⟨C5_evaluate_value.1 (fun _ _ => .ok [])
      (Parameter.mk (.query "q") (.num 7) none) (.obj []) rfl,
   C5_evaluate_value.2.2.2.1 (fun _ _ => .ok [])
      (Parameter.mk (.query "q") (.num 7) (some (Expression.mk "$.y")))
      (.obj []) (Expression.mk "$.y") rfl rfl rfl,
   C5_evaluate_value.2.2.2.2.2 (fun _ _ => .ok []) (.obj []) .query
      [Parameter.mk (.query "a") (.num 1) none]
      [Parameter.mk (.query "b") (.num 2) none]
      (Parameter.mk (.query "q") (.num 7) (some (Expression.mk "$.y"))) rfl⟩

/-- action::model::Action; the fields build_assertions reads. -/
structure Action where
  mk ::
  customer_id : String
  test_case_id : String
  id : String
  order : Nat
  name : String
  url : String
deriving Repr

/-- should_build_assertion_for_response_value (har_resolver.rs:417-423). -/
def should_build_assertion_for_response_value (res_value : JValue) : Bool :=
  let non_assertable_value :=
    (match res_value with | .bool _ => true | _ => false) ||
    (match res_value with | .null => true | _ => false) ||
    (match res_value with | .str s => s.length == 0 | _ => false) ||
    (match res_value with | .arr a => a.length == 0 | _ => false)
  !non_assertable_value

/-- Embedding of build_assertions (har_resolver.rs:381-415): for the
response index of the action, emit an EqualTo assertion for every
assertable value that resolves over the reversed slice of the prior
request indexes; the builder's defaulted uuid id is modelled as the empty
string. -/
def build_assertions (action : Action)
    (request_indexes response_indexes : List (List (String × JValue))) :
    List Assertion :=
  match response_indexes.get? action.order with
  | none => []
  | some response =>
    response.flatMap fun pq =>
      if should_build_assertion_for_response_value pq.2 then
        match resolve_value_expression_from_slice_index pq.2
            ((request_indexes.take action.order).reverse) with
        | some expression =>
          [Assertion.mk action.customer_id action.test_case_id ""
            (AssertionItem.from_expression expression)
            (AssertionItem.from_expression (Expression.mk pq.1))
            ComparisonType.equalTo false]
        | none => []
      else []

/-- C7: an assertion is emitted for action i exactly when some response
index entry of action i is assertable and resolves to an expression over
the reversed slice of the request indexes of the prior actions, and every
emitted assertion carries that found expression on the left, the response
path on the right, EqualTo, and negate false. -/
theorem C7_build_assertions (action : Action)
    (request_indexes response_indexes : List (List (String × JValue)))
    (response : List (String × JValue)) (a : Assertion)
    (hresp : response_indexes.get? action.order = some response) :
    a ∈ build_assertions action request_indexes response_indexes ↔
      ∃ pq ∈ response, should_build_assertion_for_response_value pq.2 = true ∧
        ∃ expression,
          resolve_value_expression_from_slice_index pq.2
              ((request_indexes.take action.order).reverse) = some expression ∧
          a = Assertion.mk action.customer_id action.test_case_id ""
            (AssertionItem.from_expression expression)
            (AssertionItem.from_expression (Expression.mk pq.1))
            ComparisonType.equalTo false := by
  unfold build_assertions
  rw [hresp, List.mem_flatMap]
  constructor
  · rintro ⟨pq, hmem, hin⟩
    by_cases hs : should_build_assertion_for_response_value pq.2 = true
    · rw [if_pos hs] at hin
      cases hres : resolve_value_expression_from_slice_index pq.2
          ((request_indexes.take action.order).reverse) with
      | none => rw [hres] at hin; simp at hin
      | some expression =>
        rw [hres] at hin
        simp at hin
        exact ⟨pq, hmem, hs, expression, hres, hin⟩
    · rw [if_neg hs] at hin
      simp at hin
  · rintro ⟨pq, hmem, hs, expression, hres, ha⟩
    refine ⟨pq, hmem, ?_⟩
    rw [if_pos hs, hres]
    simp [ha]

/-- C7 (witness): a concrete emission: action 1 returns the value 5 at an
output path, action 0 sent the value 5 in its input, so the equality
assertion between the two expressions is emitted. -/
theorem C7_build_assertions_witness :
    Assertion.mk "c" "t" ""
        (AssertionItem.from_expression (Expression.mk "$.a0.input.x"))
        (AssertionItem.from_expression (Expression.mk "$.a1.output.y"))
        ComparisonType.equalTo false ∈
      build_assertions (Action.mk "c" "t" "i" 1 "a1" "u")
        [[("$.a0.input.x", .num 5)]]
        [[], [("$.a1.output.y", .num 5)]] :=
  (C7_build_assertions (Action.mk "c" "t" "i" 1 "a1" "u")
      [[("$.a0.input.x", .num 5)]]
      [[], [("$.a1.output.y", .num 5)]]
      [("$.a1.output.y", .num 5)] _ rfl).mpr
    ⟨("$.a1.output.y", .num 5), by decide, by decide,
      Expression.mk "$.a0.input.x", by decide, rfl⟩

/-- run::model::RunStatus: the only two statuses. -/
inductive RunStatus where
  | inProgress
  | finished
deriving DecidableEq, Repr

/-- Insertion of Vec::sort on the Ord of Action, which compares by order
(action/model.rs). -/
def insertByOrder (a : Action) : List Action → List Action
  | [] => [a]
  | b :: rest =>
    if a.order ≤ b.order then a :: b :: rest else b :: insertByOrder a rest

/-- actions.sort() of run_test (run/execution.rs:67). -/
def sortActions : List Action → List Action
  | [] => []
  | a :: rest => insertByOrder a (sortActions rest)

/-- The observable persistence events of run_test (run/execution.rs:30-99)
that touch a Run or execute an action.  execute (run/execution.rs:100-165)
records an ActionExecution with the outcome of the HTTP call and never
touches the Run, so an action execution event carries its HTTP outcome. -/
inductive RunEvent where
  | createRun (status : RunStatus)
  | executeAction (order : Nat) (httpOk : Bool)
  | updateRun (status : RunStatus)
deriving DecidableEq, Repr

/-- The event trace of the spawned task of run_test: the Run is created
InProgress, the sorted actions are each executed whatever their HTTP
outcome, and after computing the assertion results the Run is updated to
Finished, once, at the end.  httpOutcome abstracts the transport. -/
def run_test_trace (actions : List Action) (httpOutcome : Action → Bool) :
    List RunEvent :=
  [RunEvent.createRun .inProgress] ++
    ((sortActions actions).map fun a => .executeAction a.order (httpOutcome a)) ++
    [RunEvent.updateRun .finished]

/-- Whether an event writes a Run status. -/
def isStatusEvent : RunEvent → Bool
  | .createRun _ => true
  | .updateRun _ => true
  | .executeAction _ _ => false

/-- Whether an event is a Run status update. -/
def isUpdateEvent : RunEvent → Bool
  | .updateRun _ => true
  | _ => false

/-- The order executed by an execution event. -/
def executeOrder : RunEvent → Option Nat
  | .executeAction o _ => some o
  | _ => none

theorem length_insertByOrder (a : Action) :
    ∀ l : List Action, (insertByOrder a l).length = l.length + 1 := by
  intro l
  induction l with
  | nil => rfl
  | cons b rest ih =>
    by_cases h : a.order ≤ b.order <;> simp [insertByOrder, h, ih]

theorem length_sortActions : ∀ l : List Action,
    (sortActions l).length = l.length := by
  intro l
  induction l with
  | nil => rfl
  | cons a rest ih => simp [sortActions, length_insertByOrder, ih]

theorem filterMap_order_length :
    ∀ l : List Action, (List.filterMap (fun x => some x.order) l).length = l.length := by
  intro l
  induction l with
  | nil => rfl
  | cons a rest ih => simp [List.filterMap_cons, ih]

/-- C6: the Run lifecycle of run_test: (1) the trace begins by creating the
Run InProgress, before any action executes; (2) the only status values are
InProgress and Finished; (3) the trace contains exactly one status update,
to Finished; (4) that update is the final event, after the whole action
list was processed; (5) every action of the list gives exactly one
execution event, whatever its HTTP outcome; (6) the status events do not
depend on the HTTP outcomes, so per-action HTTP failures never change the
Run status; with (3) and (4), a Finished Run never reverts. -/
theorem C6_run_status_machine :
    (∀ (actions : List Action) (f : Action → Bool),
      (run_test_trace actions f).head? = some (.createRun .inProgress)) ∧
    (∀ s : RunStatus, s = .inProgress ∨ s = .finished) ∧
    (∀ (actions : List Action) (f : Action → Bool),
      (run_test_trace actions f).filter isUpdateEvent =
        [RunEvent.updateRun .finished]) ∧
    (∀ (actions : List Action) (f : Action → Bool),
      (run_test_trace actions f).getLast? = some (.updateRun .finished)) ∧
    (∀ (actions : List Action) (f : Action → Bool),
      ((run_test_trace actions f).filterMap executeOrder).length =
        actions.length) ∧
    (∀ (actions : List Action) (f g : Action → Bool),
      (run_test_trace actions f).filter isStatusEvent =
        (run_test_trace actions g).filter isStatusEvent) := by
  refine ⟨?_, ?_, ?_, ?_, ?_, ?_⟩
  · intro actions f
    rfl
  · intro s
    cases s
    · exact Or.inl rfl
    · exact Or.inr rfl
  · intro actions f
    simp [run_test_trace, isUpdateEvent, List.filter_map, Function.comp_def]
  · intro actions f
    show ((RunEvent.createRun .inProgress ::
        ((sortActions actions).map fun a => .executeAction a.order (f a))) ++
        [RunEvent.updateRun .finished]).getLast? = some (.updateRun .finished)
    rw [List.getLast?_concat]
  · intro actions f
    simp [run_test_trace, executeOrder, List.filterMap_map, Function.comp_def,
      filterMap_order_length, length_sortActions]
  · intro actions f g
    simp [run_test_trace, isStatusEvent, List.filter_map, Function.comp_def]

end Parroton
